import Mathlib

/-!
# Reef: the reconciliation engine of `render.js`

A shallow embedding of `src/components/render.js` and of the two helpers it takes from
`src/components/utilities.js` (`isFalsy`, `isDifferentNode`).

## The tree model

The source works on DOM nodes.  A node is modelled by the data the source reads or writes:

* `expando`   an out-of-band tag on the node object (a script-set own property).  It stands for
              object identity: `cloneNode` and the `textContent` setter make new objects, which
              carry none; every other operation keeps it.
* `tagName`   the DOM property `tagName` of an element (upper case for HTML elements).
* `attributes` the attribute list in document order (`NamedNodeMap`), name and value.
* `props`     the own properties `value`, `checked`, `selected` written by `elem[att] = ...`;
              `none` means the property was never assigned.
* `childNodes` the child list.

Strings are sequences of code points; `toLowerCase` is modelled by ASCII case folding, which
agrees with it on every comparison against the ASCII words the source uses.
`setAttribute`, `removeAttribute` and the named getter `attributes[name]` are modelled as
operations by exact attribute name (the HTML parser has already lower-cased the names).
The property `src` is modelled as the reflected attribute (no URL resolution).
-/

namespace Reef

/-! ## JavaScript string primitives -/

/-- White space as matched by the class `\s` of a JavaScript regular expression. -/
def isJsWhitespace (c : Char) : Bool :=
  let n := c.toNat
  n == 9 || n == 10 || n == 11 || n == 12 || n == 13 || n == 32 || n == 160 || n == 5760 ||
  (8192 ≤ n && n ≤ 8202) || n == 8232 || n == 8233 || n == 8239 || n == 8287 || n == 12288 ||
  n == 65279

/-- The method `String.prototype.startsWith`. -/
def startsWith (s pre : String) : Bool := pre.data.isPrefixOf s.data

/-- Substring test on lists of characters: does `pat` occur in `s`. -/
def includesChars : List Char → List Char → Bool
  | [], pat => pat.isEmpty
  | c :: cs, pat => pat.isPrefixOf (c :: cs) || includesChars cs pat

/-- The method `String.prototype.includes`. -/
def includes (s pat : String) : Bool := includesChars s.data pat.data

/-- The method `String.prototype.toLowerCase` (ASCII case folding). -/
def toLowerCase (s : String) : String := ⟨s.data.map Char.toLower⟩

/-- The call `value.replace(/\s+/g, "")`: every white-space character is deleted. -/
def removeWhitespace (s : String) : String := ⟨s.data.filter fun c => !isJsWhitespace c⟩

/-- The call `name.slice(k)`: the string without its first `k` characters. -/
def slice (s : String) (k : Nat) : String := ⟨s.data.drop k⟩

/-! ## Nodes -/

/-- An attribute: name and value. -/
abbrev Attr := String × String

/-- The own properties `value`, `checked`, `selected` of an element (`none`: never assigned). -/
structure FormProps where
  value : Option String
  checked : Option String
  selected : Option String
deriving DecidableEq, Repr

/-- A DOM node: element, text or comment. -/
inductive Node where
  | element (expando : Option Nat) (tagName : String) (attributes : List Attr)
      (props : FormProps) (childNodes : List Node)
  | text (expando : Option Nat) (data : String)
  | comment (expando : Option Nat) (data : String)
deriving Repr

namespace Node

/-- The property `nodeType`: 1 element, 3 text, 8 comment. -/
def nodeType : Node → Nat
  | element .. => 1
  | text .. => 3
  | comment .. => 8

/-- The property `tagName`: a string on elements, undefined elsewhere. -/
def tagName? : Node → Option String
  | element _ t _ _ _ => some t
  | _ => none

/-- The property `nodeName`. -/
def nodeName : Node → String
  | element _ t _ _ _ => t
  | text .. => "#text"
  | comment .. => "#comment"

/-- The attribute list (empty on text and comment nodes). -/
def attributes : Node → List Attr
  | element _ _ a _ _ => a
  | _ => []

/-- The child list (empty on text and comment nodes). -/
def childNodes : Node → List Node
  | element _ _ _ _ cs => cs
  | _ => []

/-- The out-of-band tag of the node object. -/
def expando : Node → Option Nat
  | element m _ _ _ _ => m
  | text m _ => m
  | comment m _ => m

/-- The own form properties; none are set on text and comment nodes. -/
def props : Node → FormProps
  | element _ _ _ p _ => p
  | _ => ⟨none, none, none⟩

end Node

/-- Value of the attribute `name` in an attribute list (`getAttribute`). -/
def getAttr : List Attr → String → Option String
  | [], _ => none
  | a :: as, n => if a.1 = n then some a.2 else getAttr as n

/-- Is there an attribute `name` (truthiness of `attributes[name]`). -/
def hasAttr (atts : List Attr) (n : String) : Bool := (getAttr atts n).isSome

/-- Attribute list after `setAttribute(name, value)`: update in place, or append. -/
def setAttr : List Attr → String → String → List Attr
  | [], n, v => [(n, v)]
  | a :: as, n, v => if a.1 = n then (n, v) :: as else a :: setAttr as n v

/-- Attribute list after `removeAttribute(name)`.  An attribute list holds a name at most
once; on a list that holds the name several times all of them go. -/
def removeAttr : List Attr → String → List Attr
  | [], _ => []
  | a :: as, n => if a.1 = n then removeAttr as n else a :: removeAttr as n

/-- Elements whose interface has the reflecting property `src`. -/
def srcTags : List String :=
  ["img", "script", "iframe", "embed", "audio", "video", "source", "track", "input", "frame"]

namespace Node

/-- The property `id`: on an element the attribute `id` or the empty string, else undefined. -/
def id? : Node → Option String
  | element _ _ a _ _ => some ((getAttr a "id").getD "")
  | _ => none

/-- The property `src`: a string on the elements that reflect it, else undefined. -/
def src? : Node → Option String
  | element _ t a _ _ =>
    if srcTags.contains (toLowerCase t) then some ((getAttr a "src").getD "") else none
  | _ => none

/-- The DOM method `setAttribute` of an element. -/
def setAttribute : Node → String → String → Node
  | element m t a p cs, n, v => element m t (setAttr a n v) p cs
  | nd, _, _ => nd

/-- The DOM method `removeAttribute` of an element. -/
def dropAttribute : Node → String → Node
  | element m t a p cs, n => element m t (removeAttr a n) p cs
  | nd, _ => nd

/-- The assignment `elem[att] = v` for `att` among `value`, `checked`, `selected`. -/
def setProp : Node → String → String → Node
  | element m t a p cs, att, v =>
    if att = "value" then element m t a { p with value := some v } cs
    else if att = "checked" then element m t a { p with checked := some v } cs
    else if att = "selected" then element m t a { p with selected := some v } cs
    else element m t a p cs
  | nd, _, _ => nd

/-- Replace the child list of an element. -/
def setChildNodes : Node → List Node → Node
  | element m t a p _, cs => element m t a p cs
  | nd, _ => nd

end Node

mutual
/-- The property `textContent` (getter): the data of a text or comment node, and on an
element the concatenated data of its text descendants. -/
def Node.textContent : Node → String
  | .element _ _ _ _ cs => textContentList cs
  | .text _ d => d
  | .comment _ d => d
/-- Concatenated text of a child list; comments do not contribute to an element's text. -/
def textContentList : List Node → String
  | [] => ""
  | .comment _ _ :: rest => textContentList rest
  | .text _ d :: rest => d ++ textContentList rest
  | .element _ _ _ _ cs :: rest => textContentList cs ++ textContentList rest
end

/-- The property `textContent` (setter): a character-data node takes the string as its
data; an element has all its children replaced by one new text node (none for ""). -/
def Node.setTextContent : Node → String → Node
  | .element m t a p _, s => .element m t a p (if s = "" then [] else [.text none s])
  | .text m _, s => .text m s
  | .comment m _, s => .comment m s

mutual
/-- The DOM method `cloneNode(true)`: a deep copy made of new node objects. -/
def cloneNode : Node → Node
  | .element _ t a p cs => .element none t a p (cloneNodes cs)
  | .text _ d => .text none d
  | .comment _ d => .comment none d
/-- Deep copies of a child list. -/
def cloneNodes : List Node → List Node
  | [] => []
  | n :: ns => cloneNode n :: cloneNodes ns
end

/-! ## `utilities.js` -/

/-- Source: `isFalsy(str)`. -/
def isFalsy (str : String) : Bool :=
  ["false", "null", "undefined", "0", "-0", "NaN", "0n", "-0n"].contains str

/-- Source: `isDifferentNode(node1, node2)`. `typeof node1.nodeType === "number"` holds on
every node; the other three fields are compared only where `node1` has a string there. -/
def isDifferentNode (node1 node2 : Node) : Bool :=
  (node1.nodeType != node2.nodeType) ||
  (node1.tagName?.isSome && node1.tagName? != node2.tagName?) ||
  (node1.id?.isSome && node1.id? != node2.id?) ||
  (node1.src?.isSome && node1.src? != node2.src?)

/-! ## `render.js`: attributes -/

/-- Source constant `formFields`. -/
def formFields : List String := ["input", "option", "textarea"]
/-- Source constant `formAtts`. -/
def formAtts : List String := ["value", "checked", "selected"]
/-- Source constant `formAttsNoVal`. -/
def formAttsNoVal : List String := ["checked", "selected"]

/-- Modelled from the spec: the delegate collaborator of `listeners.js`, which is not among
the sources ("hand `(node, name, value)` to it instead of mutating the DOM-like attribute
directly").  Its registry lives outside the tree; on the node it writes at most one
bookkeeping attribute, which the function returns. -/
abbrev Delegate := Node → String → String → Option Attr

/-- A truthy `events` argument: an object that may carry a `delegate`. -/
structure Events where
  delegate : Option Delegate

/-- Effect of the call `events.delegate(elem, att, val)` on the node. -/
def runDelegate (d : Delegate) (elem : Node) (att val : String) : Node :=
  match d elem att val with
  | none => elem
  | some (n, v) => elem.setAttribute n v

/-- Source: `skipAttribute(name, value, events)`; the result is `true` or `undefined`,
modelled by its truthiness.  `events = none` is a falsy argument. -/
def skipAttribute (name value : String) (events : Option Events) : Bool :=
  let val := toLowerCase (removeWhitespace value)
  if ["src", "href", "xlink:href"].contains name &&
      (includes val "javascript:" || includes val "data:text/html") then true
  else if startsWith name "@on" || startsWith name "#on" then true
  else if events.isNone && startsWith name "on" then true
  else false

/-- Source: `addAttribute(elem, att, val, events)`. -/
def addAttribute (elem : Node) (att val : String) (events : Option Events) : Node :=
  if skipAttribute att val events then elem
  else
    match events with
    | some ⟨some d⟩ => runDelegate d elem att val
    | _ =>
      let elem := if formAtts.contains att then
          elem.setProp att (if att = "value" then val else " ") else elem
      elem.setAttribute att val

/-- Source: `removeAttribute(elem, att)`. -/
def removeAttribute (elem : Node) (att : String) : Node :=
  let elem := if formAtts.contains att then elem.setProp att "" else elem
  elem.dropAttribute att

/-- The tag name an element is tested with (`tagName.toLowerCase()`). -/
def lowerTag (n : Node) : String := toLowerCase (n.tagName?.getD "")

/-- Source: `diffAttributes`, body of the first loop (`for (const { name, value } of
templateAtts)`): one template attribute is added to, updated on or removed from `existing`. -/
def diffAttributesAdd (events : Option Events) (template existing : Node) (att : Attr) : Node :=
  let name := att.1
  let value := att.2
  if startsWith name "#" then existing
  else if formAtts.contains name && formFields.contains (lowerTag template) then existing
  else
    let attName := if startsWith name "@" then slice name 1 else name
    if formAttsNoVal.contains attName && isFalsy value then removeAttribute existing attName
    else addAttribute existing attName value events

/-- Source: `diffAttributes`, second loop (`for (const { name } of existingAtts)`).
`existingAtts` is the live attribute list of `existing`: the iterator reads position `i` of
the list as it is at that moment, so a removal shifts the later attributes one place down.
`fuel` bounds the number of iterations; the list never grows, so its length is enough
(`diffAttributesRemove_fuel`).  In `name.replace("reef-", "")` the name starts with `reef-`,
so the call drops these five characters. -/
def diffAttributesRemove (template : Node) : Nat → Nat → Node → Node
  | 0, _, existing => existing
  | fuel + 1, i, existing =>
    match existing.attributes[i]? with
    | none => existing
    | some (name, _) =>
      if hasAttr template.attributes name then diffAttributesRemove template fuel (i + 1) existing
      else if startsWith name "reef-on" && hasAttr template.attributes (slice name 5) then
        diffAttributesRemove template fuel (i + 1) existing
      else if formAtts.contains name && formFields.contains (lowerTag existing) then
        diffAttributesRemove template fuel (i + 1) existing
      else diffAttributesRemove template fuel (i + 1) (removeAttribute existing name)

/-- Source: `diffAttributes(template, existing, events)`. -/
def diffAttributes (events : Option Events) (template existing : Node) : Node :=
  if template.nodeType ≠ 1 then existing
  else
    let existing := template.attributes.foldl (diffAttributesAdd events template) existing
    diffAttributesRemove template existing.attributes.length 0 existing

/-- Source: `addDefaultAtts`, the loop `for (const { name, value } of elem.attributes)`.
The attribute list is live: position `i` is read from the list as the earlier iterations
left it.  `fuel` bounds the number of iterations (`addDefaultAttsLoop_fuel`). -/
def addDefaultAttsLoop (events : Option Events) : Nat → Nat → Node → Node
  | 0, _, elem => elem
  | fuel + 1, i, elem =>
    match elem.attributes[i]? with
    | none => elem
    | some (name, value) =>
      if skipAttribute name value events then
        addDefaultAttsLoop events fuel (i + 1) (removeAttribute elem name)
      else
        match events with
        | some ⟨some d⟩ =>
          addDefaultAttsLoop events fuel (i + 1) (removeAttribute (runDelegate d elem name value) name)
        | _ =>
          if !startsWith name "@" && !startsWith name "#" then
            addDefaultAttsLoop events fuel (i + 1) elem
          else
            let attName := slice name 1
            let elem := removeAttribute elem name
            if formAttsNoVal.contains attName && isFalsy value then
              addDefaultAttsLoop events fuel (i + 1) elem
            else addDefaultAttsLoop events fuel (i + 1) (addAttribute elem attName value events)

mutual
/-- Source: `addDefaultAtts(elem, events)`: the attribute loop on the element, then the
same on every child.  The attribute loop leaves the child list alone
(`addDefaultAttsLoop_childNodes`). -/
def addDefaultAtts (events : Option Events) : Node → Node
  | .element m t a p cs =>
    (addDefaultAttsLoop events a.length 0 (.element m t a p cs)).setChildNodes
      (addDefaultAttsList events cs)
  | nd => nd
/-- The loop `for (const node of elem.childNodes) addDefaultAtts(node, events)`. -/
def addDefaultAttsList (events : Option Events) : List Node → List Node
  | [] => []
  | n :: ns => addDefaultAtts events n :: addDefaultAttsList events ns
end

/-! ## `render.js`: the tree -/

/-- Source: `getNodeContent(node)`; `none` is `null`. -/
def getNodeContent (node : Node) : Option String :=
  if node.childNodes.length ≠ 0 then none else some node.textContent

/-- Truthiness of a content value: `null` and the empty string are falsy. -/
def truthy : Option String → Bool
  | some s => s ≠ ""
  | none => false

/-- Source: `aheadInTree(node, existingNodes, index)`: the first child after `index` that is
not different from `node`, if any. -/
def aheadInTree (node : Node) (existingNodes : List Node) (index : Nat) : Option Node :=
  (existingNodes.drop (index + 1)).find? fun branch => !isDifferentNode node branch

/-- Position in `existingNodes` of the node object that `aheadInTree` returns. -/
def aheadPosition (node : Node) (existingNodes : List Node) (index : Nat) : Nat :=
  index + 1 + (existingNodes.drop (index + 1)).findIdx fun branch => !isDifferentNode node branch

/-- The child list after `existingNodes[index].before(clone)` for a new node `clone`. -/
def insertBefore (existingNodes : List Node) (index : Nat) (clone : Node) : List Node :=
  existingNodes.take index ++ clone :: existingNodes.drop index

/-- The child list after `existingNodes[index].before(ahead)`, `ahead` being the child at
position `j`: the node is taken out of its place and put in front of position `index`. -/
def moveBefore (existingNodes : List Node) (index j : Nat) : List Node :=
  match existingNodes[j]? with
  | none => existingNodes
  | some ahead => insertBefore (existingNodes.eraseIdx j) index ahead

/-- Apply `f` to the child at position `index`. -/
def modifyAt (f : Node → Node) : List Node → Nat → List Node
  | [], _ => []
  | n :: ns, 0 => f n :: ns
  | n :: ns, k + 1 => n :: modifyAt f ns k

/-- The loop of `trimExtraNodes`: `existingNodes[existingNodes.length - 1].remove()`,
`extra` times. -/
def removeLast : Nat → List Node → List Node
  | 0, ns => ns
  | k + 1, ns => removeLast k ns.dropLast

/-- Source: `trimExtraNodes(existingNodes, templateNodes)`. -/
def trimExtraNodes (existingNodes templateNodes : List Node) : List Node :=
  let extra : Int := (existingNodes.length : Int) - templateNodes.length
  if extra < 1 then existingNodes else removeLast extra.toNat existingNodes

/-- Is the node matched by the selector `script`. -/
def isScript (n : Node) : Bool := n.nodeType == 1 && lowerTag n == "script"

mutual
/-- Source: `removeScripts(elem)`: every descendant matched by `querySelectorAll("script")`
is removed from its parent.  The function returns nothing. -/
def removeScripts : Node → Node
  | .element m t a p cs => .element m t a p (removeScriptsList cs)
  | nd => nd
/-- The child list without its script elements, scripts removed in the remaining children. -/
def removeScriptsList : List Node → List Node
  | [] => []
  | n :: ns =>
    if isScript n then removeScriptsList ns else removeScripts n :: removeScriptsList ns
end

/-- Source: `diff`, the text step (`templateContent && templateContent !==
getNodeContent(existingNodes[index])`), on the aligned live node. -/
def patchContent (node existing : Node) : Node :=
  let templateContent := getNodeContent node
  if truthy templateContent && templateContent != getNodeContent existing then
    existing.setTextContent (templateContent.getD "")
  else existing

/-- Source: `diff`, the callback of `templateNodes.forEach` up to the alignment of the live
child at `index` (lines 268–291); `patch` is the rest of the callback, applied to the aligned
live child `existingNodes[index]`. -/
def alignNode (events : Option Events) (patch : Node → Node) (node : Node) (index : Nat)
    (existingNodes : List Node) : List Node :=
  match existingNodes[index]? with
  | none => existingNodes ++ [addDefaultAtts events (cloneNode node)]
  | some cur =>
    if isDifferentNode node cur then
      match aheadInTree node existingNodes index with
      | none => insertBefore existingNodes index (addDefaultAtts events (cloneNode node))
      | some _ =>
        modifyAt patch (moveBefore existingNodes index (aheadPosition node existingNodes index))
          index
    else modifyAt patch existingNodes index

mutual
/-- Source: `diff`, the rest of the callback (lines 293–326) on the template node and the
aligned live child: attributes, the custom-element stop, text, children.  The two recursive
calls `diff(node, fragment)` and `diff(node, existingNodes[index])` run the loop and the trim
on the children of `node`; their `removeScripts(node)` finds nothing, the template having
been stripped by the outermost call (`removeScripts_idem`).  A text or comment node of the
template has the name `#text` or `#comment`, which has no hyphen, and no child, so that of
the three steps on children only the first can apply. -/
def patchNode (events : Option Events) : Node → Node → Node
  | .element m t a p cs, existing =>
    let existing := diffAttributes events (.element m t a p cs) existing
    if includes t "-" then existing
    else
      let existing := patchContent (.element m t a p cs) existing
      if cs.length = 0 ∧ existing.childNodes.length ≠ 0 then existing.setChildNodes []
      else if existing.childNodes.length = 0 ∧ cs.length ≠ 0 then
        existing.setChildNodes
          (existing.childNodes ++ trimExtraNodes (forEachNode events cs 0 []) cs)
      else if cs.length ≠ 0 then
        existing.setChildNodes
          (trimExtraNodes (forEachNode events cs 0 existing.childNodes) cs)
      else existing
  | .text m d, existing =>
    let existing := patchContent (.text m d) (diffAttributes events (.text m d) existing)
    if existing.childNodes.length ≠ 0 then existing.setChildNodes [] else existing
  | .comment m d, existing =>
    let existing := patchContent (.comment m d) (diffAttributes events (.comment m d) existing)
    if existing.childNodes.length ≠ 0 then existing.setChildNodes [] else existing
/-- Source: `diff`, the loop `templateNodes.forEach(function (node, index) ...)` from
position `index` on, over the live child list. -/
def forEachNode (events : Option Events) : List Node → Nat → List Node → List Node
  | [], _, existingNodes => existingNodes
  | node :: rest, index, existingNodes =>
    forEachNode events rest (index + 1)
      (alignNode events (patchNode events node) node index existingNodes)
end

/-- The child list of the live root after the loop and `trimExtraNodes`. -/
def diffNodes (events : Option Events) (templateNodes existingNodes : List Node) : List Node :=
  trimExtraNodes (forEachNode events templateNodes 0 existingNodes) templateNodes

/-- Source: `diff(template, existing, events)`.  The result is the pair of both trees after
the call: `removeScripts` mutates the template, returns nothing, so the guard
`if (removeScripts(template)) return;` never leaves the function. -/
def diff (events : Option Events) (template existing : Node) : Node × Node :=
  let template := removeScripts template
  (template, existing.setChildNodes (diffNodes events template.childNodes existing.childNodes))

/-! ## `render.js`: `stringToHTML` -/

/-- The document that `parser.parseFromString(str, "text/html")` returns, as far as
`stringToHTML` reads it: `doc.head` and `doc.body`, either of which may be `null`. -/
structure Document where
  head : Option Node
  body : Option Node

/-- Source: `stringToHTML`, the relocation
`Array.from(doc.head.childNodes).reverse().forEach(node => doc.body.insertBefore(node,
doc.body.firstChild))`, on the child list of the body: every node of the reversed head list
is put in front of the body list. -/
def relocateHead (headNodes bodyNodes : List Node) : List Node :=
  headNodes.reverse.foldl (fun body node => node :: body) bodyNodes

/-- The element that `document.createElement("body")` returns. -/
def createBody : Node := .element none "BODY" [] ⟨none, none, none⟩ []

/-- Source: `stringToHTML(str)`; `parse` is the call `parser.parseFromString(str,
"text/html")`.  The result is `none` where the source throws (head children to move and no
body to move them to). -/
def stringToHTML (parse : String → Document) (str : String) : Option Node :=
  let doc := parse str
  match doc.head, doc.body with
  | some head, some body =>
    if head.childNodes.length ≠ 0 then
      some (body.setChildNodes (relocateHead head.childNodes body.childNodes))
    else some body
  | some head, none => if head.childNodes.length ≠ 0 then none else some createBody
  | none, some body => some body
  | none, none => some createBody

/-! ## Predicates of the specification -/

mutual
/-- The node is a script element or has one among its descendants. -/
def hasScript : Node → Bool
  | .element m t a p cs => isScript (.element m t a p cs) || hasScriptList cs
  | _ => false
/-- Some node of the list is a script element or has one among its descendants. -/
def hasScriptList : List Node → Bool
  | [] => false
  | n :: ns => hasScript n || hasScriptList ns
end

/-- The tree under `root` contains a script element (at any depth). -/
def containsScript (root : Node) : Bool := hasScriptList root.childNodes

/-- The claim of the specification on `skipAttribute`, in its words: the attribute is
rejected when (1) the name is `src`, `href` or `xlink:href` and the value, white space
deleted and lower-cased, contains `javascript:` or `data:text/html`, or (2) the name starts
with `@on` or `#on`, or (3) `events` is falsy and the name starts with `on`. -/
def RejectedBySpec (name value : String) (events : Option Events) : Prop :=
  ((name = "src" ∨ name = "href" ∨ name = "xlink:href") ∧
    (includes (toLowerCase (removeWhitespace value)) "javascript:" = true ∨
      includes (toLowerCase (removeWhitespace value)) "data:text/html" = true)) ∨
  (startsWith name "@on" = true ∨ startsWith name "#on" = true) ∨
  (events = none ∧ startsWith name "on" = true)

/-- Has the tag name of the template node a hyphen (a custom element, whose children the
pass leaves alone). -/
def isCustomElement (n : Node) : Bool := includes n.nodeName "-"

mutual
/-- Structural equality as C5 states it, at every position reachable without crossing a
hyphen-tagged element: same kind, same tag name, same id and same number of children. -/
def structurallyEqual : Node → Node → Bool
  | .element m t a p cs, l =>
    l.nodeType == 1 && l.tagName? == some t && l.id? == (Node.element m t a p cs).id? &&
      l.childNodes.length == cs.length &&
      (includes t "-" || structurallyEqualList cs l.childNodes)
  | .text _ _, l => l.nodeType == 3
  | .comment _ _, l => l.nodeType == 8
/-- Structural equality of two child lists, position by position. -/
def structurallyEqualList : List Node → List Node → Bool
  | [], [] => true
  | t :: ts, l :: ls => structurallyEqual t l && structurallyEqualList ts ls
  | _, _ => false
end

mutual
/-- Convergence as the code achieves it, at every position reachable without crossing a
hyphen-tagged element: same kind and same tag name, and below a template element that is
not hyphen-tagged the same number of children, converging in turn. -/
def converges : Node → Node → Bool
  | .element _ t _ _ cs, l =>
    l.nodeType == 1 && l.tagName? == some t && (includes t "-" || convergesList cs l.childNodes)
  | .text _ _, l => l.nodeType == 3
  | .comment _ _, l => l.nodeType == 8
/-- Convergence of two child lists: same length, converging position by position. -/
def convergesList : List Node → List Node → Bool
  | [], [] => true
  | t :: ts, l :: ls => converges t l && convergesList ts ls
  | _, _ => false
end

/-- The attribute list of a template element is plain: the names are pairwise distinct (as
in every parsed element) and none starts with `@` or `#`. -/
def isPlainAttrs (atts : List Attr) : Bool :=
  atts.all (fun a => !startsWith a.1 "@" && !startsWith a.1 "#") &&
    decide ((atts.map Prod.fst).Nodup)

mutual
/-- Every element of the tree has a plain attribute list. -/
def isPlain : Node → Bool
  | .element _ _ a _ cs => isPlainAttrs a && isPlainList cs
  | _ => true
/-- Every element of the trees of the list has a plain attribute list. -/
def isPlainList : List Node → Bool
  | [] => true
  | n :: ns => isPlain n && isPlainList ns
end

mutual
/-- The ids agree at every position reachable without crossing a hyphen-tagged element:
where the template has an element and the live tree a node, the live node has the id of the
template element. -/
def idsAgree : Node → Node → Bool
  | .element m t a p cs, l =>
    l.id? == (Node.element m t a p cs).id? && (includes t "-" || idsAgreeList cs l.childNodes)
  | _, _ => true
/-- The ids agree position by position, as far as both lists go. -/
def idsAgreeList : List Node → List Node → Bool
  | t :: ts, l :: ls => idsAgree t l && idsAgreeList ts ls
  | _, _ => true
end

/-- Does the `events` argument carry a delegate (`events && events.delegate`). -/
def hasDelegate : Option Events → Bool
  | some ⟨some _⟩ => true
  | _ => false

/-- The live node `l` is not different from the template node `t`. -/
def matchesNode (t l : Node) : Bool := !isDifferentNode t l

/-- The nodes of a live child list are pairwise different under `isDifferentNode`. -/
def pairwiseDifferent : List Node → Bool
  | [] => true
  | n :: ns => ns.all (fun m => isDifferentNode n m && isDifferentNode m n) && pairwiseDifferent ns

/-- The template child list `ts` is a permutation of the live child list `ls`: as many
children, every template child is not different from exactly one live child, and no live
child is the match of two template children. -/
def isReordering (ts ls : List Node) : Bool :=
  ts.length == ls.length && ts.all (fun t => ls.countP (matchesNode t) == 1) &&
    ls.all (fun l => decide (ts.countP (fun t => matchesNode t l) ≤ 1))

/-- The hypothesis of the reordering claim, as a statement on the two lists. -/
def Reordering (ts ls : List Node) : Prop :=
  ts.length = ls.length ∧ (∀ t ∈ ts, ls.countP (matchesNode t) = 1) ∧
    ∀ l ∈ ls, ts.countP (fun t => matchesNode t l) ≤ 1

/-- The live child that the template child `t` is not different from. -/
def matchOf (t : Node) (ls : List Node) : Node := (ls.find? (matchesNode t)).getD t

/-- The live children in the order of the template children they match. -/
def arranged (ts ls : List Node) : List Node := ts.map fun t => matchOf t ls

mutual
/-- The nodes below a node, in document order. -/
def Node.descendants : Node → List Node
  | .element _ _ _ _ cs => nodesOf cs
  | _ => []
/-- The nodes of a child list together with all their descendants, in document order. -/
def nodesOf : List Node → List Node
  | [] => []
  | n :: ns => n :: (n.descendants ++ nodesOf ns)
end

/-- The node `x`, if its object carries an out-of-band tag, is the object of a node of `S`:
it was not created during the pass and it is none of the template. -/
def FromLive (S : List Node) (x : Node) : Prop :=
  x.expando.isSome = true → ∃ e ∈ S, e.expando = x.expando

/-- Every template child at an index is aligned with the live child at that index
(`isDifferentNode` is false), the live list being at least as long. -/
def allAligned : List Node → List Node → Bool
  | [], _ => true
  | _ :: _, [] => false
  | t :: ts, l :: ls => !isDifferentNode t l && allAligned ts ls

/-! ## Auxiliary definitions for the proofs -/

/-- The node `r` is the node `n` up to its attribute list and its form properties. -/
def AttrsOnly (n r : Node) : Prop :=
  match n with
  | .element m t _ _ cs => ∃ a p, r = .element m t a p cs
  | nd => r = nd

/-- The node `x`, if it is a hyphen-tagged element whose object carries an out-of-band tag,
is a node of `S` up to its own attributes and form properties: same object, same tag name,
same child list with everything below. -/
def KeptFrom (S : List Node) (x : Node) : Prop :=
  isCustomElement x = true → x.expando.isSome = true → ∃ e ∈ S, AttrsOnly e x

/-- First element of a list that satisfies `p`, with the list it leaves behind. -/
def extractFirst (p : Node → Bool) : List Node → Option (Node × List Node)
  | [] => none
  | n :: ns =>
    if p n then some (n, ns)
    else match extractFirst p ns with
      | none => none
      | some (a, rest) => some (a, n :: rest)

/-- The callback at position 0 of the live list: the node it leaves at position 0 and the
list behind it. -/
def stepHead (events : Option Events) (patch : Node → Node) (node : Node) :
    List Node → Node × List Node
  | [] => (addDefaultAtts events (cloneNode node), [])
  | cur :: rest =>
    if isDifferentNode node cur then
      match extractFirst (fun branch => !isDifferentNode node branch) rest with
      | none => (addDefaultAtts events (cloneNode node), cur :: rest)
      | some (ahead, rest') => (patch ahead, cur :: rest')
    else (patch cur, rest)

/-! ## Example trees -/

/-- A parsed element: no tag on the object, no form property assigned. -/
def parsed (tag : String) (atts : List Attr) (cs : List Node) : Node :=
  .element none tag atts ⟨none, none, none⟩ cs

/-- A live element whose node object carries the out-of-band tag `k`. -/
def tagged (k : Nat) (tag : String) (atts : List Attr) (cs : List Node) : Node :=
  .element (some k) tag atts ⟨none, none, none⟩ cs

/-- The live root `<div></div>`. -/
def emptyRoot : Node := parsed "DIV" [] []

/-- The template `<script></script><p></p>`. -/
def scriptTemplate : Node := parsed "BODY" [] [parsed "SCRIPT" [] [], parsed "P" [] []]

/-- The template `<a onclick="x" href="javascript:alert(1)"></a>`. -/
def linkTemplate : Node :=
  parsed "BODY" [] [parsed "A" [("onclick", "x"), ("href", "javascript:alert(1)")] []]

/-- The template `<div @title="x"></div>`. -/
def aliasTemplate : Node := parsed "BODY" [] [parsed "DIV" [("@title", "x")] []]

/-- The template `<div #title="x"></div>`. -/
def markerTemplate : Node := parsed "BODY" [] [parsed "DIV" [("#title", "x")] []]

/-- The live root with the children `A`, `B` (tagged 1, 2). -/
def abRoot : Node := parsed "DIV" [] [tagged 1 "A" [] [], tagged 2 "B" [] []]

/-- The template with the children `B`, `A`. -/
def baTemplate : Node := parsed "BODY" [] [parsed "B" [] [], parsed "A" [] []]

/-- The live root with the children `<script>`, `<div>` (tagged 1, 2). -/
def scriptDivRoot : Node := parsed "BODY" [] [tagged 1 "SCRIPT" [] [], tagged 2 "DIV" [] []]

/-- The template with the children `<div>`, `<script>`. -/
def divScriptTemplate : Node := parsed "BODY" [] [parsed "DIV" [] [], parsed "SCRIPT" [] []]

/-- The template node `<my-widget class="a"><span>X</span></my-widget>`. -/
def customNode : Node := parsed "MY-WIDGET" [("class", "a")] [parsed "SPAN" [] [.text none "X"]]

/-- The live node `<my-widget><p>old</p></my-widget>`, its node objects tagged 1, 2, 3. -/
def customLive : Node := tagged 1 "MY-WIDGET" [] [tagged 2 "P" [] [.text (some 3) "old"]]

/-- A parsed document with the head children `<title>`, `<style>` and the body child
`<p>`. -/
def headDocument : Document :=
  ⟨some (parsed "HEAD" [] [parsed "TITLE" [] [.text none "t"], parsed "STYLE" [] []]),
    some (parsed "BODY" [] [parsed "P" [] []])⟩

/-- The live children `<p>`, `<span>`, `<b>`, `<span id="s">`, `<span>` (tagged 1 to 5). -/
def aheadNodes : List Node :=
  [tagged 1 "P" [] [], tagged 2 "SPAN" [] [], tagged 3 "B" [] [],
    tagged 4 "SPAN" [("id", "s")] [], tagged 5 "SPAN" [] []]

/-- The template with the one child `<!---->`, a comment with empty data. -/
def emptyCommentTemplate : Node := parsed "BODY" [] [.comment none ""]

/-- The live root with the one child `<!--x-->`, tagged 1. -/
def commentRoot : Node := parsed "DIV" [] [.comment (some 1) "x"]

/-- The template node `<div @checked="true">`. -/
def aliasCheckedDiv : Node := parsed "DIV" [("@checked", "true")] []

/-- The template with the children `<script>`, `<div>`. -/
def scriptDivTemplate : Node := parsed "BODY" [] [parsed "SCRIPT" [] [], parsed "DIV" [] []]

/-- The template `<div></div><p></p>` whose node objects carry the tags 7, 8, 9. -/
def taggedTemplate : Node := tagged 7 "BODY" [] [tagged 8 "DIV" [] [], tagged 9 "P" [] []]

/-! ## Attribute operations change nothing but attributes and form properties -/

theorem AttrsOnly.refl {n : Node} : AttrsOnly n n := by
  cases n <;> simp [AttrsOnly]

theorem AttrsOnly.trans {a b c : Node} (h₁ : AttrsOnly a b) (h₂ : AttrsOnly b c) :
    AttrsOnly a c := by
  cases a with
  | element m t at1 p cs =>
    obtain ⟨a1, p1, rfl⟩ := h₁
    obtain ⟨a2, p2, rfl⟩ := h₂
    exact ⟨a2, p2, rfl⟩
  | text m d => cases h₁; exact h₂
  | comment m d => cases h₁; exact h₂

theorem AttrsOnly.childNodes {n r : Node} (h : AttrsOnly n r) : r.childNodes = n.childNodes := by
  cases n with
  | element m t a p cs => obtain ⟨a1, p1, rfl⟩ := h; rfl
  | text m d => cases h; rfl
  | comment m d => cases h; rfl

theorem AttrsOnly.expando {n r : Node} (h : AttrsOnly n r) : r.expando = n.expando := by
  cases n with
  | element m t a p cs => obtain ⟨a1, p1, rfl⟩ := h; rfl
  | text m d => cases h; rfl
  | comment m d => cases h; rfl

theorem AttrsOnly.nodeType {n r : Node} (h : AttrsOnly n r) : r.nodeType = n.nodeType := by
  cases n with
  | element m t a p cs => obtain ⟨a1, p1, rfl⟩ := h; rfl
  | text m d => cases h; rfl
  | comment m d => cases h; rfl

theorem AttrsOnly.tagName? {n r : Node} (h : AttrsOnly n r) : r.tagName? = n.tagName? := by
  cases n with
  | element m t a p cs => obtain ⟨a1, p1, rfl⟩ := h; rfl
  | text m d => cases h; rfl
  | comment m d => cases h; rfl

theorem AttrsOnly.textContent {n r : Node} (h : AttrsOnly n r) : r.textContent = n.textContent := by
  cases n with
  | element m t a p cs => obtain ⟨a1, p1, rfl⟩ := h; rfl
  | text m d => cases h; rfl
  | comment m d => cases h; rfl

theorem setAttribute_attrsOnly (n : Node) (a v : String) : AttrsOnly n (n.setAttribute a v) := by
  cases n <;> simp [AttrsOnly, Node.setAttribute]

theorem dropAttribute_attrsOnly (n : Node) (a : String) : AttrsOnly n (n.dropAttribute a) := by
  cases n <;> simp [AttrsOnly, Node.dropAttribute]

theorem setProp_attrsOnly (n : Node) (a v : String) : AttrsOnly n (n.setProp a v) := by
  cases n with
  | element m t at1 p cs =>
    simp only [AttrsOnly, Node.setProp]
    split_ifs <;> exact ⟨_, _, rfl⟩
  | text m d => simp [AttrsOnly, Node.setProp]
  | comment m d => simp [AttrsOnly, Node.setProp]

theorem removeAttribute_attrsOnly (n : Node) (a : String) : AttrsOnly n (removeAttribute n a) := by
  unfold removeAttribute
  split_ifs
  · exact (setProp_attrsOnly n a "").trans (dropAttribute_attrsOnly _ a)
  · exact dropAttribute_attrsOnly n a

theorem runDelegate_attrsOnly (d : Delegate) (n : Node) (a v : String) :
    AttrsOnly n (runDelegate d n a v) := by
  unfold runDelegate
  split
  · exact AttrsOnly.refl
  · exact setAttribute_attrsOnly n _ _

theorem addAttribute_attrsOnly (n : Node) (a v : String) (events : Option Events) :
    AttrsOnly n (addAttribute n a v events) := by
  unfold addAttribute
  split
  · exact AttrsOnly.refl
  · split
    · exact runDelegate_attrsOnly _ n a v
    · simp only
      split
      · exact (setProp_attrsOnly n a _).trans (setAttribute_attrsOnly _ a v)
      · exact setAttribute_attrsOnly n a v

theorem diffAttributesAdd_attrsOnly (events : Option Events) (template existing : Node)
    (att : Attr) : AttrsOnly existing (diffAttributesAdd events template existing att) := by
  unfold diffAttributesAdd
  simp only
  repeat' split
  all_goals first
    | exact AttrsOnly.refl
    | exact removeAttribute_attrsOnly _ _
    | exact addAttribute_attrsOnly _ _ _ _

theorem foldl_attrsOnly (f : Node → Attr → Node) (hf : ∀ n a, AttrsOnly n (f n a))
    (atts : List Attr) (n : Node) : AttrsOnly n (atts.foldl f n) := by
  induction atts generalizing n with
  | nil => exact AttrsOnly.refl
  | cons a as ih => exact (hf n a).trans (ih (f n a))

theorem diffAttributesRemove_attrsOnly (template : Node) (fuel i : Nat) (existing : Node) :
    AttrsOnly existing (diffAttributesRemove template fuel i existing) := by
  induction fuel generalizing i existing with
  | zero => exact AttrsOnly.refl
  | succ k ih =>
    unfold diffAttributesRemove
    split
    · exact AttrsOnly.refl
    · split_ifs
      · exact ih _ _
      · exact ih _ _
      · exact ih _ _
      · exact (removeAttribute_attrsOnly _ _).trans (ih _ _)

theorem diffAttributes_attrsOnly (events : Option Events) (template existing : Node) :
    AttrsOnly existing (diffAttributes events template existing) := by
  unfold diffAttributes
  split_ifs
  · exact AttrsOnly.refl
  · exact (foldl_attrsOnly _ (diffAttributesAdd_attrsOnly events template) _ _).trans
      (diffAttributesRemove_attrsOnly _ _ _ _)

theorem addDefaultAttsLoop_attrsOnly (events : Option Events) (fuel i : Nat) (elem : Node) :
    AttrsOnly elem (addDefaultAttsLoop events fuel i elem) := by
  induction fuel generalizing i elem with
  | zero => exact AttrsOnly.refl
  | succ k ih =>
    unfold addDefaultAttsLoop
    simp only
    repeat' split
    all_goals first
      | exact AttrsOnly.refl
      | exact ih _ _
      | exact (removeAttribute_attrsOnly _ _).trans (ih _ _)
      | exact ((runDelegate_attrsOnly _ _ _ _).trans (removeAttribute_attrsOnly _ _)).trans
          (ih _ _)
      | exact ((removeAttribute_attrsOnly _ _).trans (addAttribute_attrsOnly _ _ _ _)).trans
          (ih _ _)

/-- The attribute loop of `addDefaultAtts` leaves the child list alone. -/
theorem addDefaultAttsLoop_childNodes (events : Option Events) (fuel i : Nat) (elem : Node) :
    (addDefaultAttsLoop events fuel i elem).childNodes = elem.childNodes :=
  (addDefaultAttsLoop_attrsOnly events fuel i elem).childNodes

/-! ## The bound on the iterations of the two attribute loops is never reached -/

theorem length_removeAttr_le (l : List Attr) (n : String) :
    (removeAttr l n).length ≤ l.length := by
  induction l with
  | nil => simp [removeAttr]
  | cons a as ih =>
    unfold removeAttr
    split_ifs
    · simp only [List.length_cons]
      omega
    · simp only [List.length_cons]
      omega

theorem length_removeAttr_of_mem (l : List Attr) (n v : String) (h : (n, v) ∈ l) :
    (removeAttr l n).length + 1 ≤ l.length := by
  induction l with
  | nil => simp at h
  | cons a as ih =>
    unfold removeAttr
    by_cases ha : a.1 = n
    · simp only [ha, ↓reduceIte, List.length_cons]
      have := length_removeAttr_le as n
      omega
    · simp only [ha, ↓reduceIte, List.length_cons]
      rcases List.mem_cons.mp h with h' | h'
      · exact absurd (by rw [← h']) ha
      · have := ih h'
        omega

theorem length_setAttr_le (l : List Attr) (n v : String) :
    (setAttr l n v).length ≤ l.length + 1 := by
  induction l with
  | nil => simp [setAttr]
  | cons a as ih =>
    unfold setAttr
    split_ifs
    · simp
    · simp only [List.length_cons]
      omega

theorem mem_setAttr_of_mem (l : List Attr) (n v n' v' : String) (h : (n', v') ∈ l) :
    ∃ w, (n', w) ∈ setAttr l n v := by
  induction l with
  | nil => simp at h
  | cons a as ih =>
    unfold setAttr
    by_cases ha : a.1 = n
    · simp only [ha, ↓reduceIte]
      rcases List.mem_cons.mp h with h' | h'
      · refine ⟨v, ?_⟩
        have : n' = n := by rw [← ha, ← h']
        simp [this]
      · exact ⟨v', List.mem_cons_of_mem _ h'⟩
    · simp only [ha, ↓reduceIte]
      rcases List.mem_cons.mp h with h' | h'
      · exact ⟨v', by simp [h']⟩
      · obtain ⟨w, hw⟩ := ih h'
        exact ⟨w, List.mem_cons_of_mem _ hw⟩

theorem attributes_setProp (e : Node) (a v : String) :
    (e.setProp a v).attributes = e.attributes := by
  cases e with
  | element m t at1 p cs =>
    simp only [Node.setProp]
    split_ifs <;> rfl
  | text m d => rfl
  | comment m d => rfl

theorem attributes_dropAttribute (e : Node) (n : String) :
    (e.dropAttribute n).attributes = removeAttr e.attributes n := by
  cases e <;> simp [Node.dropAttribute, Node.attributes, removeAttr]

theorem attributes_removeAttribute (e : Node) (n : String) :
    (removeAttribute e n).attributes = removeAttr e.attributes n := by
  unfold removeAttribute
  simp only
  split_ifs <;> simp [attributes_dropAttribute, attributes_setProp]

theorem length_setAttribute_le (e : Node) (n v : String) :
    (e.setAttribute n v).attributes.length ≤ e.attributes.length + 1 := by
  cases e with
  | element m t a p cs => exact length_setAttr_le a n v
  | text m d => simp [Node.setAttribute, Node.attributes]
  | comment m d => simp [Node.setAttribute, Node.attributes]

theorem length_addAttribute_le (e : Node) (n v : String) (events : Option Events) :
    (addAttribute e n v events).attributes.length ≤ e.attributes.length + 1 := by
  unfold addAttribute
  split
  · omega
  · split
    · unfold runDelegate
      split
      · omega
      · exact length_setAttribute_le _ _ _
    · simp only
      split
      · exact (length_setAttribute_le _ _ _).trans (by rw [attributes_setProp])
      · exact length_setAttribute_le _ _ _

theorem length_runDelegate_remove (d : Delegate) (e : Node) (n v : String)
    (h : (n, v) ∈ e.attributes) :
    (removeAttribute (runDelegate d e n v) n).attributes.length ≤ e.attributes.length := by
  rw [attributes_removeAttribute]
  unfold runDelegate
  split
  · have := length_removeAttr_of_mem _ _ _ h
    omega
  · rename_i n' v' _
    cases e with
    | element m t a p cs =>
      simp only [Node.setAttribute, Node.attributes] at h ⊢
      obtain ⟨w, hw⟩ := mem_setAttr_of_mem a n' v' n v h
      have h1 := length_removeAttr_of_mem _ _ _ hw
      have h2 := length_setAttr_le a n' v'
      omega
    | text m d => simp [Node.attributes] at h
    | comment m d => simp [Node.attributes] at h

/-- The bound `fuel` of the attribute loop of `addDefaultAtts` is not reached: with the
length of the attribute list as bound, more fuel gives the same node. -/
theorem addDefaultAttsLoop_fuel_add (events : Option Events) (n k : Nat) :
    ∀ (i : Nat) (elem : Node), elem.attributes.length ≤ i + n →
      addDefaultAttsLoop events (n + k) i elem = addDefaultAttsLoop events n i elem := by
  induction n with
  | zero =>
    intro i elem h
    have hnone : elem.attributes[i]? = none := List.getElem?_eq_none (by omega)
    cases k with
    | zero => rfl
    | succ k =>
      rw [show 0 + (k + 1) = k + 1 from by omega]
      simp [addDefaultAttsLoop, hnone]
  | succ n ih =>
    intro i elem h
    rw [show n + 1 + k = (n + k) + 1 from by omega]
    simp only [addDefaultAttsLoop]
    cases hget : elem.attributes[i]? with
    | none => rfl
    | some av =>
      obtain ⟨name, value⟩ := av
      have hmem : (name, value) ∈ elem.attributes := List.getElem?_mem hget
      have hrm : (removeAttribute elem name).attributes.length + 1 ≤ elem.attributes.length := by
        rw [attributes_removeAttribute]
        exact length_removeAttr_of_mem _ _ _ hmem
      have hdel : ∀ d, (removeAttribute (runDelegate d elem name value) name).attributes.length ≤
          elem.attributes.length := fun d => length_runDelegate_remove d elem name value hmem
      have hadd := length_addAttribute_le (removeAttribute elem name) (slice name 1) value events
      simp only
      repeat' split
      all_goals first
        | exact ih _ _ (by omega)
        | exact ih _ _ (by have := hdel ‹_›; omega)

/-- Source: the attribute loop of `addDefaultAtts` run with the length of the attribute list
as bound is the loop run with any larger bound. -/
theorem addDefaultAttsLoop_fuel (events : Option Events) (elem : Node) (k : Nat) :
    addDefaultAttsLoop events (elem.attributes.length + k) 0 elem =
      addDefaultAttsLoop events elem.attributes.length 0 elem :=
  addDefaultAttsLoop_fuel_add events _ k 0 elem (by omega)

theorem diffAttributesRemove_fuel_add (template : Node) (n k : Nat) :
    ∀ (i : Nat) (existing : Node), existing.attributes.length ≤ i + n →
      diffAttributesRemove template (n + k) i existing =
        diffAttributesRemove template n i existing := by
  induction n with
  | zero =>
    intro i existing h
    have hnone : existing.attributes[i]? = none := List.getElem?_eq_none (by omega)
    cases k with
    | zero => rfl
    | succ k =>
      rw [show 0 + (k + 1) = k + 1 from by omega]
      simp [diffAttributesRemove, hnone]
  | succ n ih =>
    intro i existing h
    rw [show n + 1 + k = (n + k) + 1 from by omega]
    simp only [diffAttributesRemove]
    cases hget : existing.attributes[i]? with
    | none => rfl
    | some av =>
      obtain ⟨name, value⟩ := av
      have hrm : (removeAttribute existing name).attributes.length ≤
          existing.attributes.length := by
        rw [attributes_removeAttribute]
        exact length_removeAttr_le _ _
      simp only
      repeat' split
      all_goals exact ih _ _ (by omega)

/-- Source: the second loop of `diffAttributes` run with the length of the attribute list
as bound is the loop run with any larger bound. -/
theorem diffAttributesRemove_fuel (template existing : Node) (k : Nat) :
    diffAttributesRemove template (existing.attributes.length + k) 0 existing =
      diffAttributesRemove template existing.attributes.length 0 existing :=
  diffAttributesRemove_fuel_add template _ k 0 existing (by omega)

/-! ## The loop of `diff`, seen from the position it works on -/

theorem forEachNode_nil (events : Option Events) (i : Nat) (ex : List Node) :
    forEachNode events [] i ex = ex := by
  rw [forEachNode]

theorem forEachNode_step (events : Option Events) (t : Node) (ts : List Node) (i : Nat)
    (ex : List Node) :
    forEachNode events (t :: ts) i ex =
      forEachNode events ts (i + 1) (alignNode events (patchNode events t) t i ex) := by
  rw [forEachNode]

theorem insertBefore_cons (d : Node) (ns : List Node) (k : Nat) (c : Node) :
    insertBefore (d :: ns) (k + 1) c = d :: insertBefore ns k c := by
  simp [insertBefore]

theorem moveBefore_cons (d : Node) (ns : List Node) (k j : Nat) :
    moveBefore (d :: ns) (k + 1) (j + 1) = d :: moveBefore ns k j := by
  unfold moveBefore
  simp only [List.getElem?_cons_succ, List.eraseIdx_cons_succ]
  split <;> simp [insertBefore]

theorem aheadInTree_cons (node d : Node) (ns : List Node) (k : Nat) :
    aheadInTree node (d :: ns) (k + 1) = aheadInTree node ns k := by
  simp [aheadInTree]

theorem aheadPosition_cons (node d : Node) (ns : List Node) (k : Nat) :
    aheadPosition node (d :: ns) (k + 1) = aheadPosition node ns k + 1 := by
  simp [aheadPosition]
  omega

/-- The callback at position `k + 1` leaves the first live child where it is. -/
theorem alignNode_cons (events : Option Events) (patch : Node → Node) (t d : Node)
    (ns : List Node) (k : Nat) :
    alignNode events patch t (k + 1) (d :: ns) = d :: alignNode events patch t k ns := by
  unfold alignNode
  rw [aheadInTree_cons, aheadPosition_cons, moveBefore_cons]
  simp only [List.getElem?_cons_succ]
  repeat' split
  all_goals simp [insertBefore_cons, modifyAt]

/-- The loop from position `k + 1` on leaves the first live child where it is. -/
theorem forEachNode_cons (events : Option Events) (ts : List Node) (d : Node)
    (ns : List Node) (k : Nat) :
    forEachNode events ts (k + 1) (d :: ns) = d :: forEachNode events ts k ns := by
  induction ts generalizing d ns k with
  | nil => simp [forEachNode_nil]
  | cons t ts ih => rw [forEachNode_step, forEachNode_step, alignNode_cons, ih]

theorem extractFirst_none (p : Node → Bool) (ns : List Node) :
    extractFirst p ns = none ↔ ns.find? p = none := by
  induction ns with
  | nil => simp [extractFirst]
  | cons n ns ih =>
    unfold extractFirst
    by_cases h : p n = true
    · simp [h]
    · simp only [h, Bool.false_eq_true, ↓reduceIte, List.find?_cons]
      cases hx : extractFirst p ns with
      | none => simpa [Bool.not_eq_true] using ih.mp hx
      | some r =>
        simp only [false_iff, reduceCtorEq]
        intro hf
        rw [ih.mpr (by simpa [Bool.not_eq_true] using hf)] at hx
        exact absurd hx (by simp)

theorem extractFirst_some (p : Node → Bool) (ns : List Node) (a : Node) (rest : List Node)
    (h : extractFirst p ns = some (a, rest)) :
    ns.find? p = some a ∧ ns[ns.findIdx p]? = some a ∧ ns.eraseIdx (ns.findIdx p) = rest := by
  induction ns generalizing a rest with
  | nil => simp [extractFirst] at h
  | cons n ns ih =>
    unfold extractFirst at h
    by_cases hp : p n = true
    · simp only [hp, ↓reduceIte, Option.some.injEq, Prod.mk.injEq] at h
      obtain ⟨rfl, rfl⟩ := h
      simp [List.findIdx_cons, hp]
    · simp only [hp, Bool.false_eq_true, ↓reduceIte] at h
      cases hx : extractFirst p ns with
      | none => simp [hx] at h
      | some r =>
        obtain ⟨a', rest'⟩ := r
        simp only [hx, Option.some.injEq, Prod.mk.injEq] at h
        obtain ⟨rfl, rfl⟩ := h
        obtain ⟨h1, h2, h3⟩ := ih a' rest' hx
        simp [List.findIdx_cons, hp, h1, h2, h3]

/-- The callback at position 0 puts one node in front of the remaining live list. -/
theorem alignNode_zero (events : Option Events) (patch : Node → Node) (t : Node)
    (ns : List Node) :
    alignNode events patch t 0 ns =
      (stepHead events patch t ns).1 :: (stepHead events patch t ns).2 := by
  cases ns with
  | nil => simp [alignNode, stepHead]
  | cons cur rest =>
    unfold alignNode stepHead
    simp only [List.getElem?_cons_zero]
    by_cases hd : isDifferentNode t cur = true
    · simp only [hd, ↓reduceIte]
      cases hx : extractFirst (fun branch => !isDifferentNode t branch) rest with
      | none =>
        have := (extractFirst_none _ _).mp hx
        simp [aheadInTree, this, insertBefore]
      | some r =>
        obtain ⟨a, rest'⟩ := r
        obtain ⟨h1, h2, h3⟩ := extractFirst_some _ _ _ _ hx
        have hpos : aheadPosition t (cur :: rest) 0 =
            rest.findIdx (fun branch => !isDifferentNode t branch) + 1 := by
          simp [aheadPosition]
          omega
        rw [hpos]
        simp [aheadInTree, moveBefore, h1, h2, h3, insertBefore, modifyAt]
    · simp [hd, modifyAt]

/-- The loop from position 0: the callback puts one node in front, and the loop goes on
behind it. -/
theorem forEachNode_zero (events : Option Events) (t : Node) (ts : List Node)
    (ns : List Node) :
    forEachNode events (t :: ts) 0 ns =
      (stepHead events (patchNode events t) t ns).1 ::
        forEachNode events ts 0 (stepHead events (patchNode events t) t ns).2 := by
  rw [forEachNode_step, alignNode_zero, forEachNode_cons]

theorem removeLast_eq_take (k : Nat) (ns : List Node) :
    removeLast k ns = ns.take (ns.length - k) := by
  induction k generalizing ns with
  | zero => simp [removeLast]
  | succ k ih =>
    rw [removeLast, ih, List.dropLast_eq_take, List.take_take]
    simp only [List.length_take]
    congr 1
    omega

/-- The function `trimExtraNodes` keeps the first `templateNodes.length` live children. -/
theorem trimExtraNodes_eq_take (ex ts : List Node) :
    trimExtraNodes ex ts = ex.take ts.length := by
  unfold trimExtraNodes
  simp only
  split_ifs with h
  · rw [List.take_of_length_le]
    omega
  · rw [removeLast_eq_take]
    congr 1
    omega

/-! ## Scripts -/

theorem isScript_removeScripts (n : Node) : isScript (removeScripts n) = isScript n := by
  cases n <;> simp [removeScripts, isScript, Node.nodeType, lowerTag, Node.tagName?]

mutual
/-- Stripping a stripped tree changes nothing: the `removeScripts` of a recursive call of
`diff` finds no script. -/
theorem removeScripts_idem : ∀ n : Node, removeScripts (removeScripts n) = removeScripts n
  | .element m t a p cs => by
    simp only [removeScripts]
    rw [removeScriptsList_idem cs]
  | .text _ _ => by simp [removeScripts]
  | .comment _ _ => by simp [removeScripts]
/-- Stripping a stripped child list changes nothing. -/
theorem removeScriptsList_idem :
    ∀ ns : List Node, removeScriptsList (removeScriptsList ns) = removeScriptsList ns
  | [] => by simp [removeScriptsList]
  | n :: ns => by
    rw [removeScriptsList]
    by_cases h : isScript n = true
    · simp only [h, ↓reduceIte]
      exact removeScriptsList_idem ns
    · simp only [h, Bool.false_eq_true, ↓reduceIte]
      rw [removeScriptsList, isScript_removeScripts]
      simp only [h, Bool.false_eq_true, ↓reduceIte]
      rw [removeScripts_idem n, removeScriptsList_idem ns]
end

theorem hasScript_eq (n : Node) : hasScript n = (isScript n || hasScriptList n.childNodes) := by
  cases n <;> simp [hasScript, isScript, Node.nodeType, Node.childNodes, hasScriptList]

theorem hasScriptList_false_iff (ns : List Node) :
    hasScriptList ns = false ↔ ∀ n ∈ ns, hasScript n = false := by
  induction ns with
  | nil => simp [hasScriptList]
  | cons n ns ih => simp [hasScriptList, ih]

mutual
theorem hasScriptList_removeScripts : ∀ n : Node, hasScriptList (removeScripts n).childNodes = false
  | .element m t a p cs => by
    simp only [removeScripts, Node.childNodes]
    exact hasScriptList_removeScriptsList cs
  | .text _ _ => by simp [removeScripts, Node.childNodes, hasScriptList]
  | .comment _ _ => by simp [removeScripts, Node.childNodes, hasScriptList]
theorem hasScriptList_removeScriptsList :
    ∀ ns : List Node, hasScriptList (removeScriptsList ns) = false
  | [] => by simp [removeScriptsList, hasScriptList]
  | n :: ns => by
    rw [removeScriptsList]
    by_cases h : isScript n = true
    · simp only [h, ↓reduceIte]
      exact hasScriptList_removeScriptsList ns
    · simp only [h, Bool.false_eq_true, ↓reduceIte, hasScriptList, Bool.or_eq_false_iff]
      refine ⟨?_, hasScriptList_removeScriptsList ns⟩
      rw [hasScript_eq, isScript_removeScripts, hasScriptList_removeScripts n]
      simpa using h
end

theorem AttrsOnly.isScript {n r : Node} (h : AttrsOnly n r) : isScript r = isScript n := by
  simp [Reef.isScript, lowerTag, h.nodeType, h.tagName?]

theorem AttrsOnly.hasScript {n r : Node} (h : AttrsOnly n r) : hasScript r = hasScript n := by
  rw [hasScript_eq, hasScript_eq, h.isScript, h.childNodes]

mutual
theorem hasScript_cloneNode : ∀ n : Node, hasScript (cloneNode n) = hasScript n
  | .element m t a p cs => by
    simp only [cloneNode, hasScript, hasScriptList_cloneNodes cs]
    simp [isScript, Node.nodeType, lowerTag, Node.tagName?]
  | .text _ _ => by simp [cloneNode, hasScript]
  | .comment _ _ => by simp [cloneNode, hasScript]
theorem hasScriptList_cloneNodes : ∀ ns : List Node, hasScriptList (cloneNodes ns) = hasScriptList ns
  | [] => by simp [cloneNodes]
  | n :: ns => by
    simp only [cloneNodes, hasScriptList, hasScript_cloneNode n, hasScriptList_cloneNodes ns]
end

theorem isScript_setChildNodes (n : Node) (cs : List Node) :
    isScript (n.setChildNodes cs) = isScript n := by
  cases n <;> simp [Node.setChildNodes, isScript, Node.nodeType, lowerTag, Node.tagName?]

theorem hasScript_setChildNodes (n : Node) (cs : List Node) (h : hasScript n = false)
    (hcs : hasScriptList cs = false) : hasScript (n.setChildNodes cs) = false := by
  cases n with
  | element m t a p cs' =>
    simp only [hasScript, Bool.or_eq_false_iff] at h
    simp only [Node.setChildNodes, hasScript, Bool.or_eq_false_iff]
    exact ⟨by simpa [isScript, Node.nodeType, lowerTag, Node.tagName?] using h.1, hcs⟩
  | text m d => simp [Node.setChildNodes, hasScript]
  | comment m d => simp [Node.setChildNodes, hasScript]

mutual
theorem hasScript_addDefaultAtts (events : Option Events) :
    ∀ n : Node, hasScript (addDefaultAtts events n) = hasScript n
  | .element m t a p cs => by
    rw [addDefaultAtts]
    have h := addDefaultAttsLoop_attrsOnly events a.length 0 (.element m t a p cs)
    obtain ⟨a', p', h'⟩ := h
    rw [h']
    simp only [Node.setChildNodes, hasScript, hasScriptList_addDefaultAttsList events cs]
    simp [isScript, Node.nodeType, lowerTag, Node.tagName?]
  | .text _ _ => by simp [addDefaultAtts]
  | .comment _ _ => by simp [addDefaultAtts]
theorem hasScriptList_addDefaultAttsList (events : Option Events) :
    ∀ ns : List Node, hasScriptList (addDefaultAttsList events ns) = hasScriptList ns
  | [] => by simp [addDefaultAttsList]
  | n :: ns => by
    simp only [addDefaultAttsList, hasScriptList, hasScript_addDefaultAtts events n,
      hasScriptList_addDefaultAttsList events ns]
end

theorem hasScript_patchContent (t e : Node) (h : hasScript e = false) :
    hasScript (patchContent t e) = false := by
  unfold patchContent
  simp only
  split
  · cases e <;> simp_all [Node.setTextContent, hasScript, isScript, Node.nodeType, lowerTag,
      Node.tagName?]
    split <;> simp [hasScriptList, hasScript]
  · exact h

theorem extractFirst_mem (p : Node → Bool) (ns : List Node) (a : Node) (rest : List Node)
    (h : extractFirst p ns = some (a, rest)) : a ∈ ns ∧ ∀ x ∈ rest, x ∈ ns := by
  obtain ⟨h1, _, h3⟩ := extractFirst_some p ns a rest h
  refine ⟨List.mem_of_find?_eq_some h1, ?_⟩
  intro x hx
  rw [← h3] at hx
  exact (List.eraseIdx_sublist _ _).subset hx

/-- The rest of the callback on an element of the template, written with `diffNodes`. -/
theorem patchNode_element (events : Option Events) (m : Option Nat) (t : String)
    (a : List Attr) (p : FormProps) (cs : List Node) (existing : Node) :
    patchNode events (.element m t a p cs) existing =
      if includes t "-" then diffAttributes events (.element m t a p cs) existing
      else
        let e := patchContent (.element m t a p cs)
          (diffAttributes events (.element m t a p cs) existing)
        if cs.length = 0 ∧ e.childNodes.length ≠ 0 then e.setChildNodes []
        else if e.childNodes.length = 0 ∧ cs.length ≠ 0 then
          e.setChildNodes (e.childNodes ++ diffNodes events cs [])
        else if cs.length ≠ 0 then e.setChildNodes (diffNodes events cs e.childNodes)
        else e := by
  rw [patchNode]
  rfl

/-- The rest of the callback on a text or comment node of the template. -/
theorem patchNode_leaf (events : Option Events) (t existing : Node) (ht : t.nodeType ≠ 1) :
    patchNode events t existing =
      if (patchContent t existing).childNodes.length ≠ 0 then
        (patchContent t existing).setChildNodes []
      else patchContent t existing := by
  cases t with
  | element m tg a p cs => simp [Node.nodeType] at ht
  | text m d => rw [patchNode]; simp [diffAttributes, Node.nodeType]
  | comment m d => rw [patchNode]; simp [diffAttributes, Node.nodeType]

theorem hasScriptList_take (ns : List Node) (k : Nat) (h : hasScriptList ns = false) :
    hasScriptList (ns.take k) = false := by
  rw [hasScriptList_false_iff] at h ⊢
  exact fun n hn => h n (List.mem_of_mem_take hn)

theorem hasScriptList_append (xs ys : List Node) (hx : hasScriptList xs = false)
    (hy : hasScriptList ys = false) : hasScriptList (xs ++ ys) = false := by
  rw [hasScriptList_false_iff] at hx hy ⊢
  intro n hn
  rcases List.mem_append.mp hn with h | h
  · exact hx n h
  · exact hy n h

theorem hasScript_stepHead (events : Option Events) (patch : Node → Node) (t : Node)
    (ns : List Node) (ht : hasScript t = false) (hns : hasScriptList ns = false)
    (hp : ∀ e, hasScript e = false → hasScript (patch e) = false) :
    hasScript (stepHead events patch t ns).1 = false ∧
      hasScriptList (stepHead events patch t ns).2 = false := by
  have hclone : hasScript (addDefaultAtts events (cloneNode t)) = false := by
    rw [hasScript_addDefaultAtts, hasScript_cloneNode, ht]
  rw [hasScriptList_false_iff] at hns
  cases ns with
  | nil => exact ⟨hclone, by simp [stepHead, hasScriptList]⟩
  | cons cur rest =>
    unfold stepHead
    by_cases hd : isDifferentNode t cur = true
    · simp only [hd, ↓reduceIte]
      cases hx : extractFirst (fun branch => !isDifferentNode t branch) rest with
      | none =>
        exact ⟨hclone, (hasScriptList_false_iff _).mpr hns⟩
      | some r =>
        obtain ⟨a, rest'⟩ := r
        obtain ⟨h1, h2⟩ := extractFirst_mem _ _ _ _ hx
        refine ⟨hp a (hns a (List.mem_cons_of_mem _ h1)), ?_⟩
        rw [hasScriptList_false_iff]
        intro n hn
        rcases List.mem_cons.mp hn with h | h
        · exact hns n (by simp [h])
        · exact hns n (List.mem_cons_of_mem _ (h2 n h))
    · simp only [hd, Bool.false_eq_true, ↓reduceIte]
      exact ⟨hp cur (hns cur (by simp)),
        (hasScriptList_false_iff _).mpr fun n hn => hns n (List.mem_cons_of_mem _ hn)⟩

mutual
/-- Patching a script-free live node against a script-free template node gives a
script-free node. -/
theorem hasScript_patchNode (events : Option Events) :
    ∀ (t e : Node), hasScript t = false → hasScript e = false →
      hasScript (patchNode events t e) = false
  | .element m tg a p cs, e, ht, he => by
    have hcs : hasScriptList cs = false := by
      simp only [hasScript, Bool.or_eq_false_iff] at ht
      exact ht.2
    have h1 : hasScript (diffAttributes events (.element m tg a p cs) e) = false := by
      rw [(diffAttributes_attrsOnly events _ e).hasScript, he]
    have h2 := hasScript_patchContent (.element m tg a p cs) _ h1
    have h2c : hasScriptList (patchContent (.element m tg a p cs)
        (diffAttributes events (.element m tg a p cs) e)).childNodes = false := by
      rw [hasScript_eq, Bool.or_eq_false_iff] at h2
      exact h2.2
    rw [patchNode_element]
    simp only [diffNodes, trimExtraNodes_eq_take]
    split_ifs
    · exact h1
    · exact hasScript_setChildNodes _ _ h2 (by simp [hasScriptList])
    · exact hasScript_setChildNodes _ _ h2
        (hasScriptList_append _ _ h2c
          (hasScriptList_take _ _ (hasScriptList_forEachNode events cs [] hcs
            (by simp [hasScriptList]))))
    · exact hasScript_setChildNodes _ _ h2
        (hasScriptList_take _ _ (hasScriptList_forEachNode events cs _ hcs h2c))
    · exact h2
  | .text m d, e, _, he => by
    rw [patchNode_leaf events _ e (by simp [Node.nodeType])]
    have h2 := hasScript_patchContent (.text m d) e he
    split_ifs
    · exact hasScript_setChildNodes _ _ h2 (by simp [hasScriptList])
    · exact h2
  | .comment m d, e, _, he => by
    rw [patchNode_leaf events _ e (by simp [Node.nodeType])]
    have h2 := hasScript_patchContent (.comment m d) e he
    split_ifs
    · exact hasScript_setChildNodes _ _ h2 (by simp [hasScriptList])
    · exact h2
/-- The loop over a script-free template keeps a script-free live list script-free. -/
theorem hasScriptList_forEachNode (events : Option Events) :
    ∀ (ts ns : List Node), hasScriptList ts = false → hasScriptList ns = false →
      hasScriptList (forEachNode events ts 0 ns) = false
  | [], ns, _, hns => by rw [forEachNode_nil]; exact hns
  | t :: ts, ns, hts, hns => by
    simp only [hasScriptList, Bool.or_eq_false_iff] at hts
    obtain ⟨h1, h2⟩ := hasScript_stepHead events (patchNode events t) t ns hts.1 hns
      (fun e he => hasScript_patchNode events t e hts.1 he)
    rw [forEachNode_zero]
    simp only [hasScriptList, Bool.or_eq_false_iff]
    exact ⟨h1, hasScriptList_forEachNode events ts _ hts.2 h2⟩
end

theorem hasScriptList_diffNodes (events : Option Events) (ts ns : List Node)
    (hts : hasScriptList ts = false) (hns : hasScriptList ns = false) :
    hasScriptList (diffNodes events ts ns) = false := by
  rw [diffNodes, trimExtraNodes_eq_take]
  exact hasScriptList_take _ _ (hasScriptList_forEachNode events ts ns hts hns)

theorem childNodes_setChildNodes_of_element (n : Node) (cs : List Node) (h : n.nodeType = 1) :
    (n.setChildNodes cs).childNodes = cs := by
  cases n <;> simp_all [Node.setChildNodes, Node.childNodes, Node.nodeType]

theorem containsScript_setChildNodes (n : Node) (cs : List Node) (h : containsScript n = false)
    (hcs : hasScriptList cs = false) : containsScript (n.setChildNodes cs) = false := by
  cases n <;> simp_all [Node.setChildNodes, Node.childNodes, containsScript]

/-! ## The script gate -/

/-- C1, as stated, fails: the template `<script></script><p></p>` contains a script
element, and `diff` into the empty live root `<div></div>` changes the live tree (a `<p>`
is appended). -/
theorem script_gate_counterexample :
    containsScript scriptTemplate = true ∧
      (diff none scriptTemplate emptyRoot).2 = parsed "DIV" [] [parsed "P" [] []] ∧
      (diff none scriptTemplate emptyRoot).2 ≠ emptyRoot := by
  refine ⟨rfl, rfl, ?_⟩
  rw [show (diff none scriptTemplate emptyRoot).2 = parsed "DIV" [] [parsed "P" [] []] from rfl]
  simp [emptyRoot, parsed]

/-- C1, amended: `diff` never aborts on scripts.  It removes every script element from the
template (the template after the call is `removeScripts T`, which contains no script
element) and reconciles the live tree against what is left: the live tree after
`diff(T, L, events)` is the live tree after `diff(removeScripts T, L, events)`. -/
theorem script_gate_strips (events : Option Events) (T L : Node) :
    (diff events T L).1 = removeScripts T ∧
      containsScript (diff events T L).1 = false ∧
      (diff events T L).2 = (diff events (removeScripts T) L).2 := by
  refine ⟨rfl, hasScriptList_removeScripts T, ?_⟩
  simp only [diff, removeScripts_idem]

/-! ## The sanitizer on clones -/

/-- C2, the failing input: with `events` falsy, `href="javascript:alert(1)"` is rejected by
`skipAttribute`, the empty live root carries no attribute at all, and after `diff` of
`<a onclick="x" href="javascript:alert(1)">` the inserted live node carries that `href`:
removing `onclick` shifts `href` to the position the iterator has just left. -/
theorem sanitizer_skips_attribute_after_removal :
    skipAttribute "href" "javascript:alert(1)" none = true ∧
      (diff none linkTemplate emptyRoot).2 =
        parsed "DIV" [] [parsed "A" [("href", "javascript:alert(1)")] []] :=
  ⟨rfl, rfl⟩

/-- C3: if the live tree contains no script element, it contains none after
`diff(T, L, events)`, whatever the template and the events option. -/
theorem diff_no_script_enters (events : Option Events) (T L : Node)
    (h : containsScript L = false) : containsScript (diff events T L).2 = false := by
  unfold diff
  exact containsScript_setChildNodes L _ h
    (hasScriptList_diffNodes events _ _ (hasScriptList_removeScripts T) h)

/-- Witness of C3: a template with a script element rendered into the empty root. -/
theorem diff_no_script_enters_witness :
    containsScript emptyRoot = false ∧
      containsScript (diff none scriptTemplate emptyRoot).2 = false :=
  ⟨rfl, diff_no_script_enters none scriptTemplate emptyRoot rfl⟩

/-! ## `skipAttribute` -/

/-- C4: `skipAttribute(name, value, events)` is truthy exactly in the three cases of the
specification; in particular the obfuscated value `" Java\tScript:alert(1)"` on `href` is
rejected whatever `events` is, and so is every name that starts with `@on` or `#on`. -/
theorem skipAttribute_iff (name value : String) (events : Option Events) :
    (skipAttribute name value events = true ↔ RejectedBySpec name value events) ∧
      skipAttribute "href" " Java\tScript:alert(1)" events = true ∧
      (startsWith name "@on" = true ∨ startsWith name "#on" = true →
        skipAttribute name value events = true) := by
  have key : skipAttribute name value events = true ↔ RejectedBySpec name value events := by
    unfold skipAttribute RejectedBySpec
    simp only [List.contains_cons, List.contains_nil, Bool.or_false, Bool.and_eq_true,
      Bool.or_eq_true, beq_iff_eq, Option.isNone_iff_eq_none]
    split_ifs with h1 h2 h3
    · simp only [true_iff]
      exact Or.inl ⟨by tauto, h1.2⟩
    · simp only [true_iff]
      exact Or.inr (Or.inl h2)
    · simp only [true_iff]
      exact Or.inr (Or.inr (by simpa [Option.isNone_iff_eq_none] using h3))
    · simp only [Bool.false_eq_true, false_iff]
      rintro (⟨hn, hv⟩ | h | h)
      · exact h1 ⟨by tauto, hv⟩
      · exact h2 h
      · exact h3 (by simpa [Option.isNone_iff_eq_none] using h)
  refine ⟨key, ?_, ?_⟩
  · cases events <;> rfl
  · intro h
    exact key.mpr (Or.inr (Or.inl h))

/-! ## Child counts -/

theorem converges_of_shell (t l : Node) (cs : List Node) (h1 : l.nodeType = t.nodeType)
    (h2 : t.nodeType = 1 → l.tagName? = t.tagName?)
    (h3 : isCustomElement t = false → t.nodeType = 1 → convergesList t.childNodes cs = true) :
    converges t (l.setChildNodes cs) = true := by
  cases t with
  | element m tg a p tcs =>
    cases l with
    | element m' tg' a' p' lcs =>
      simp only [Node.nodeType, Node.tagName?, forall_const, Option.some.injEq] at h2
      simp only [isCustomElement, Node.nodeName, Node.nodeType, Node.childNodes,
        forall_const] at h3
      simp only [converges, Node.setChildNodes, Node.nodeType, Node.tagName?, Node.childNodes,
        beq_self_eq_true, Bool.true_and, h2]
      cases hh : includes tg "-" with
      | true => simp
      | false => simp [h3 hh]
    | text m' d' => simp [Node.nodeType] at h1
    | comment m' d' => simp [Node.nodeType] at h1
  | text m d =>
    cases l <;> simp_all [Node.nodeType, converges, Node.setChildNodes]
  | comment m d =>
    cases l <;> simp_all [Node.nodeType, converges, Node.setChildNodes]

theorem setChildNodes_childNodes (n : Node) : n.setChildNodes n.childNodes = n := by
  cases n <;> rfl

mutual
/-- A sanitized clone of a template node converges to it. -/
theorem converges_clone (events : Option Events) :
    ∀ t : Node, converges t (addDefaultAtts events (cloneNode t)) = true
  | .element m tg a p cs => by
    rw [cloneNode, addDefaultAtts]
    obtain ⟨a', p', h'⟩ := addDefaultAttsLoop_attrsOnly events a.length 0
      (.element none tg a p (cloneNodes cs))
    rw [h']
    simp only [converges, Node.setChildNodes, Node.nodeType, Node.tagName?, Node.childNodes,
      beq_self_eq_true, Bool.true_and, convergesList_clone events cs, Bool.or_true]
  | .text _ _ => by simp [cloneNode, addDefaultAtts, converges, Node.nodeType]
  | .comment _ _ => by simp [cloneNode, addDefaultAtts, converges, Node.nodeType]
/-- Sanitized clones of a template list converge to it. -/
theorem convergesList_clone (events : Option Events) :
    ∀ ts : List Node, convergesList ts (addDefaultAttsList events (cloneNodes ts)) = true
  | [] => by simp [cloneNodes, addDefaultAttsList, convergesList]
  | t :: ts => by
    simp only [cloneNodes, addDefaultAttsList, convergesList, converges_clone events t,
      convergesList_clone events ts, Bool.and_self]
end

theorem isDifferentNode_false (t l : Node) (h : isDifferentNode t l = false) :
    l.nodeType = t.nodeType ∧ (t.nodeType = 1 → l.tagName? = t.tagName?) := by
  unfold isDifferentNode at h
  simp only [Bool.or_eq_false_iff, bne_eq_false_iff_eq, Bool.and_eq_false_imp] at h
  refine ⟨h.1.1.1.symm, fun h1 => ?_⟩
  cases t with
  | element m tg a p cs =>
    have := h.1.1.2 (by simp [Node.tagName?])
    exact this.symm
  | text m d => simp [Node.nodeType] at h1
  | comment m d => simp [Node.nodeType] at h1

theorem nodeType_setTextContent (n : Node) (s : String) :
    (n.setTextContent s).nodeType = n.nodeType := by
  cases n <;> rfl

theorem tagName?_setTextContent (n : Node) (s : String) :
    (n.setTextContent s).tagName? = n.tagName? := by
  cases n <;> rfl

theorem nodeType_patchContent (t e : Node) : (patchContent t e).nodeType = e.nodeType := by
  unfold patchContent
  simp only
  split
  · exact nodeType_setTextContent _ _
  · rfl

theorem tagName?_patchContent (t e : Node) : (patchContent t e).tagName? = e.tagName? := by
  unfold patchContent
  simp only
  split
  · exact tagName?_setTextContent _ _
  · rfl

theorem converges_stepHead (events : Option Events) (patch : Node → Node) (t : Node)
    (ns : List Node)
    (hp : ∀ e, isDifferentNode t e = false → converges t (patch e) = true) :
    converges t (stepHead events patch t ns).1 = true := by
  cases ns with
  | nil => exact converges_clone events t
  | cons cur rest =>
    unfold stepHead
    by_cases hd : isDifferentNode t cur = true
    · simp only [hd, ↓reduceIte]
      cases hx : extractFirst (fun branch => !isDifferentNode t branch) rest with
      | none => exact converges_clone events t
      | some r =>
        obtain ⟨a, rest'⟩ := r
        obtain ⟨h1, _, _⟩ := extractFirst_some _ _ _ _ hx
        have := List.find?_some h1
        exact hp a (by simpa using this)
    · simp only [hd, Bool.false_eq_true, ↓reduceIte]
      exact hp cur (by simpa using hd)

mutual
/-- Patching the aligned live node makes it converge to the template node. -/
theorem converges_patchNode (events : Option Events) :
    ∀ (t e : Node), isDifferentNode t e = false → converges t (patchNode events t e) = true
  | .element m tg a p cs, e, hd => by
    obtain ⟨hty, htag⟩ := isDifferentNode_false _ e hd
    have hA := diffAttributes_attrsOnly events (.element m tg a p cs) e
    have h1ty : (diffAttributes events (.element m tg a p cs) e).nodeType = 1 := by
      rw [hA.nodeType, hty]; rfl
    have h1tag : (diffAttributes events (.element m tg a p cs) e).tagName? = some tg := by
      rw [hA.tagName?, htag rfl]; rfl
    rw [patchNode_element]
    by_cases hh : includes tg "-" = true
    · simp only [hh, ↓reduceIte]
      rw [← setChildNodes_childNodes (diffAttributes events (.element m tg a p cs) e)]
      exact converges_of_shell _ _ _ h1ty (fun _ => h1tag)
        (fun hc => by simp [isCustomElement, Node.nodeName, hh] at hc)
    · simp only [hh, Bool.false_eq_true, ↓reduceIte]
      have h2ty := (nodeType_patchContent (.element m tg a p cs)
        (diffAttributes events (.element m tg a p cs) e)).trans h1ty
      have h2tag := (tagName?_patchContent (.element m tg a p cs)
        (diffAttributes events (.element m tg a p cs) e)).trans h1tag
      have hdiff : ∀ ns, convergesList cs (diffNodes events cs ns) = true := by
        intro ns
        rw [diffNodes, trimExtraNodes_eq_take]
        exact convergesList_forEachNode events cs ns
      split_ifs with c1 c2 c3
      · refine converges_of_shell _ _ _ h2ty (fun _ => h2tag) (fun _ _ => ?_)
        have : cs = [] := List.length_eq_zero.mp c1.1
        simp [Node.childNodes, this, convergesList]
      · refine converges_of_shell _ _ _ h2ty (fun _ => h2tag) (fun _ _ => ?_)
        rw [List.length_eq_zero.mp c2.1, List.nil_append]
        exact hdiff []
      · exact converges_of_shell _ _ _ h2ty (fun _ => h2tag) (fun _ _ => hdiff _)
      · have hcs : cs = [] := List.length_eq_zero.mp (by simpa using c3)
        subst hcs
        have he : (patchContent (.element m tg a p [])
            (diffAttributes events (.element m tg a p []) e)).childNodes = [] := by
          apply List.length_eq_zero.mp
          by_contra hne
          exact c1 ⟨rfl, hne⟩
        rw [← setChildNodes_childNodes (patchContent _ _)]
        refine converges_of_shell _ _ _ h2ty (fun _ => h2tag) (fun _ _ => ?_)
        rw [he]
        rfl
  | .text m d, e, hd => by
    obtain ⟨hty, _⟩ := isDifferentNode_false _ e hd
    rw [patchNode_leaf events _ e (by simp [Node.nodeType])]
    have h2 := nodeType_patchContent (.text m d) e
    split_ifs
    · exact converges_of_shell _ _ _ (h2.trans hty)
        (fun h => by simp [Node.nodeType] at h) (fun _ h => by simp [Node.nodeType] at h)
    · simp only [converges]
      rw [h2, hty]
      rfl
  | .comment m d, e, hd => by
    obtain ⟨hty, _⟩ := isDifferentNode_false _ e hd
    rw [patchNode_leaf events _ e (by simp [Node.nodeType])]
    have h2 := nodeType_patchContent (.comment m d) e
    split_ifs
    · exact converges_of_shell _ _ _ (h2.trans hty)
        (fun h => by simp [Node.nodeType] at h) (fun _ h => by simp [Node.nodeType] at h)
    · simp only [converges]
      rw [h2, hty]
      rfl
/-- After the loop, the first `ts.length` live children converge to the template list. -/
theorem convergesList_forEachNode (events : Option Events) :
    ∀ (ts ns : List Node),
      convergesList ts ((forEachNode events ts 0 ns).take ts.length) = true
  | [], ns => by simp [convergesList]
  | t :: ts, ns => by
    rw [forEachNode_zero]
    simp only [List.length_cons, List.take_succ_cons, convergesList, Bool.and_eq_true]
    exact ⟨converges_stepHead events _ t ns (fun e he => converges_patchNode events t e he),
      convergesList_forEachNode events ts _⟩
end

/-- C6, the failing input: `<div @title="x">` rendered into the empty root gives a live
`<div title="x">`; the second `diff` against the same template removes `title` again, the
second loop of `diffAttributes` finding no attribute `title` in the template.  The same
holds for `<div #title="x">`. -/
theorem second_pass_removes_alias_attribute :
    (diff none aliasTemplate emptyRoot).2 = parsed "DIV" [] [parsed "DIV" [("title", "x")] []] ∧
      (diff none aliasTemplate (diff none aliasTemplate emptyRoot).2).2 =
        parsed "DIV" [] [parsed "DIV" [] []] ∧
      (diff none markerTemplate emptyRoot).2 =
        parsed "DIV" [] [parsed "DIV" [("title", "x")] []] ∧
      (diff none markerTemplate (diff none markerTemplate emptyRoot).2).2 =
        parsed "DIV" [] [parsed "DIV" [] []] :=
  ⟨by with_unfolding_all rfl, by with_unfolding_all rfl, by with_unfolding_all rfl,
    by with_unfolding_all rfl⟩

/-! ## Form state -/

theorem getAttr_setAttr_ne (l : List Attr) (n v a : String) (h : n ≠ a) :
    getAttr (setAttr l n v) a = getAttr l a := by
  induction l with
  | nil => simp [setAttr, getAttr, h]
  | cons x xs ih =>
    unfold setAttr
    by_cases hx : x.1 = n
    · have hxa : x.1 ≠ a := hx ▸ h
      simp [hx, getAttr, h, hxa]
    · simp only [hx, ↓reduceIte, getAttr, ih]

theorem getAttr_removeAttr_ne (l : List Attr) (n a : String) (h : n ≠ a) :
    getAttr (removeAttr l n) a = getAttr l a := by
  induction l with
  | nil => simp [removeAttr]
  | cons x xs ih =>
    unfold removeAttr
    by_cases hx : x.1 = n
    · simp [hx, getAttr, h, ih]
    · simp only [hx, ↓reduceIte, getAttr, ih]

theorem AttrsOnly.lowerTag {n r : Node} (h : AttrsOnly n r) : lowerTag r = lowerTag n := by
  simp [Reef.lowerTag, h.tagName?]

theorem extractFirst_split (q : Node → Bool) (ns : List Node) (a : Node) (rest : List Node)
    (h : extractFirst q ns = some (a, rest)) :
    ∃ pre post, ns = pre ++ a :: post ∧ rest = pre ++ post ∧ q a = true := by
  induction ns generalizing a rest with
  | nil => simp [extractFirst] at h
  | cons n ns ih =>
    unfold extractFirst at h
    by_cases hp : q n = true
    · simp only [hp, ↓reduceIte, Option.some.injEq, Prod.mk.injEq] at h
      obtain ⟨rfl, rfl⟩ := h
      exact ⟨[], ns, rfl, rfl, hp⟩
    · simp only [hp, Bool.false_eq_true, ↓reduceIte] at h
      cases hx : extractFirst q ns with
      | none => simp [hx] at h
      | some r =>
        obtain ⟨a', rest'⟩ := r
        simp only [hx, Option.some.injEq, Prod.mk.injEq] at h
        obtain ⟨rfl, rfl⟩ := h
        obtain ⟨pre, post, h1, h2, h3⟩ := ih a' rest' hx
        exact ⟨n :: pre, post, by simp [h1], by simp [h2], h3⟩

theorem expando_setChildNodes (n : Node) (cs : List Node) :
    (n.setChildNodes cs).expando = n.expando := by
  cases n <;> rfl

theorem expando_patchContent (t e : Node) : (patchContent t e).expando = e.expando := by
  unfold patchContent
  simp only
  split
  · cases e <;> rfl
  · rfl

/-- Patching keeps the node object: the out-of-band tag of the live node stays. -/
theorem expando_patchNode (events : Option Events) (t e : Node) :
    (patchNode events t e).expando = e.expando := by
  cases t with
  | element m tg a p cs =>
    have h1 := (diffAttributes_attrsOnly events (.element m tg a p cs) e).expando
    rw [patchNode_element]
    simp only
    split_ifs <;>
      simp only [expando_setChildNodes, expando_patchContent, h1]
  | text m d =>
    rw [patchNode_leaf events _ e (by simp [Node.nodeType])]
    split_ifs <;> simp only [expando_setChildNodes, expando_patchContent]
  | comment m d =>
    rw [patchNode_leaf events _ e (by simp [Node.nodeType])]
    split_ifs <;> simp only [expando_setChildNodes, expando_patchContent]

theorem reordering_of_isReordering {ts ls : List Node} (h : isReordering ts ls = true) :
    Reordering ts ls := by
  simpa [isReordering, Reordering, and_assoc] using h

theorem matchOf_cons_of_not (t cur : Node) (rest : List Node)
    (h : matchesNode t cur = false) : matchOf t (cur :: rest) = matchOf t rest := by
  simp [matchOf, List.find?_cons, h]

theorem matchOf_middle_of_not (t a : Node) (pre post : List Node)
    (h : matchesNode t a = false) : matchOf t (pre ++ a :: post) = matchOf t (pre ++ post) := by
  induction pre with
  | nil => simp [matchOf, List.find?_cons, h]
  | cons x xs ih =>
    simp only [matchOf, List.cons_append, List.find?_cons] at ih ⊢
    cases hx : matchesNode t x with
    | true => rfl
    | false => exact ih

theorem not_matches_of_other {t t' : Node} {ts : List Node} {l : Node}
    (hle : (t :: ts).countP (fun x => matchesNode x l) ≤ 1) (ht : matchesNode t l = true)
    (ht' : t' ∈ ts) : matchesNode t' l = false := by
  by_contra hc
  have hpos : 0 < ts.countP (fun x => matchesNode x l) :=
    List.countP_pos_iff.mpr ⟨t', ht', by simpa using hc⟩
  simp only [List.countP_cons, ht, ↓reduceIte] at hle
  omega

theorem reordering_tail {t a : Node} {ts pre post : List Node}
    (h : Reordering (t :: ts) (pre ++ a :: post)) (ha : matchesNode t a = true) :
    Reordering ts (pre ++ post) ∧ ∀ t' ∈ ts, matchesNode t' a = false := by
  obtain ⟨hlen, hts, hls⟩ := h
  have hna : ∀ t' ∈ ts, matchesNode t' a = false :=
    fun t' ht' => not_matches_of_other (hls a (by simp)) ha ht'
  refine ⟨⟨?_, ?_, ?_⟩, hna⟩
  · simp only [List.length_cons, List.length_append] at hlen ⊢
    omega
  · intro t' ht'
    have := hts t' (List.mem_cons_of_mem _ ht')
    simpa [List.countP_append, List.countP_cons, hna t' ht'] using this
  · intro l hl
    have hl' : l ∈ pre ++ a :: post := by
      rcases List.mem_append.mp hl with h | h
      · exact List.mem_append_left _ h
      · exact List.mem_append_right _ (List.mem_cons_of_mem _ h)
    have := hls l hl'
    simp only [List.countP_cons] at this
    omega

/-- On a reordering the loop patches, for every template child in turn, the one live child
that matches it: no node is cloned. -/
theorem forEachNode_reordering (events : Option Events) (ts : List Node) :
    ∀ ns : List Node, Reordering ts ns →
      forEachNode events ts 0 ns = ts.map (fun t => patchNode events t (matchOf t ns)) ∧
        (arranged ts ns).Perm ns ∧ ∀ t ∈ ts, matchesNode t (matchOf t ns) = true := by
  induction ts with
  | nil =>
    intro ns h
    have : ns = [] := List.length_eq_zero.mp h.1.symm
    subst this
    simp [forEachNode_nil, arranged]
  | cons t ts ih =>
    intro ns h
    cases ns with
    | nil => simp [Reordering] at h
    | cons cur rest =>
      have key : ∃ pre a post, cur :: rest = pre ++ a :: post ∧ matchesNode t a = true ∧
          matchOf t (cur :: rest) = a ∧
          stepHead events (patchNode events t) t (cur :: rest) =
            (patchNode events t a, pre ++ post) := by
        by_cases hd : isDifferentNode t cur = true
        · have hcur : matchesNode t cur = false := by simp [matchesNode, hd]
          have hcount := h.2.1 t (by simp)
          simp only [List.countP_cons, hcur, Bool.false_eq_true, ↓reduceIte, Nat.add_zero]
            at hcount
          cases hx : extractFirst (fun branch => !isDifferentNode t branch) rest with
          | none =>
            have hnone := (extractFirst_none _ _).mp hx
            have : rest.countP (matchesNode t) = 0 := by
              rw [List.countP_eq_zero]
              intro x hxm
              have := List.find?_eq_none.mp hnone x hxm
              simpa [matchesNode] using this
            omega
          | some r =>
            obtain ⟨a, rest'⟩ := r
            obtain ⟨pre, post, h1, h2, h3⟩ := extractFirst_split _ _ _ _ hx
            obtain ⟨hf, _, _⟩ := extractFirst_some _ _ _ _ hx
            refine ⟨cur :: pre, a, post, by simp [h1], by simpa [matchesNode] using h3, ?_, ?_⟩
            · rw [matchOf_cons_of_not t cur rest hcur]
              have hf' : rest.find? (matchesNode t) = some a := hf
              simp [matchOf, hf']
            · simp [stepHead, hd, hx, h2]
        · have hcur : matchesNode t cur = true := by simpa [matchesNode] using hd
          refine ⟨[], cur, rest, rfl, hcur, ?_, ?_⟩
          · simp [matchOf, List.find?_cons, hcur]
          · simp [stepHead, hd]
      obtain ⟨pre, a, post, hsplit, hma, hmo, hstep⟩ := key
      rw [hsplit] at h
      obtain ⟨htail, hna⟩ := reordering_tail h hma
      obtain ⟨ih1, ih2, ih3⟩ := ih (pre ++ post) htail
      have hsame : ∀ t' ∈ ts, matchOf t' (cur :: rest) = matchOf t' (pre ++ post) := by
        intro t' ht'
        rw [hsplit]
        exact matchOf_middle_of_not t' a pre post (hna t' ht')
      refine ⟨?_, ?_, ?_⟩
      · rw [forEachNode_zero, hstep, ih1]
        simp only [List.map_cons, hmo, List.cons.injEq, true_and]
        exact List.map_congr_left fun t' ht' => by rw [hsame t' ht']
      · have harr : arranged (t :: ts) (cur :: rest) = a :: arranged ts (pre ++ post) := by
          simp only [arranged, List.map_cons, hmo, List.cons.injEq, true_and]
          exact List.map_congr_left fun t' ht' => hsame t' ht'
        rw [harr, hsplit]
        exact (List.Perm.cons a ih2).trans List.perm_middle.symm
      · intro t' ht'
        rcases List.mem_cons.mp ht' with rfl | ht''
        · rw [hmo]; exact hma
        · rw [hsame t' ht'']; exact ih3 t' ht''

/-! ## Reordering without destruction -/

/-- C8, as stated, fails: the live children `<script>`, `<div>` are pairwise different and
the template children `<div>`, `<script>` are a permutation of them, but `diff` strips the
script from the template and trims the live script node: the live children are not the two
original node objects in the order of the template. -/
theorem reordering_counterexample :
    pairwiseDifferent scriptDivRoot.childNodes = true ∧
      isReordering divScriptTemplate.childNodes scriptDivRoot.childNodes = true ∧
      (diff none divScriptTemplate scriptDivRoot).2 = parsed "BODY" [] [tagged 2 "DIV" [] []] ∧
      (arranged divScriptTemplate.childNodes scriptDivRoot.childNodes).map Node.expando =
        [some 2, some 1] ∧
      (diff none divScriptTemplate scriptDivRoot).2.childNodes.map Node.expando ≠
        (arranged divScriptTemplate.childNodes scriptDivRoot.childNodes).map Node.expando := by
  refine ⟨by with_unfolding_all rfl, by with_unfolding_all rfl, by with_unfolding_all rfl,
    by with_unfolding_all rfl, ?_⟩
  rw [show (diff none divScriptTemplate scriptDivRoot).2.childNodes.map Node.expando = [some 2]
    from by with_unfolding_all rfl]
  rw [show (arranged divScriptTemplate.childNodes scriptDivRoot.childNodes).map Node.expando =
    [some 2, some 1] from by with_unfolding_all rfl]
  simp

/-- C8, amended: when the child list of the template, as `removeScripts` leaves it, is a
permutation of the live child list, the children of the live root after `diff` are exactly
the original live node objects, each patched in place against the template child it matches,
in the order of the template: none is cloned and none is removed. -/
theorem diff_reorders_in_place (events : Option Events) (T L : Node) (hL : L.nodeType = 1)
    (h : isReordering (removeScripts T).childNodes L.childNodes = true) :
    (diff events T L).2.childNodes =
        (removeScripts T).childNodes.map
          (fun t => patchNode events t (matchOf t L.childNodes)) ∧
      (diff events T L).2.childNodes.map Node.expando =
        (arranged (removeScripts T).childNodes L.childNodes).map Node.expando ∧
      (arranged (removeScripts T).childNodes L.childNodes).Perm L.childNodes ∧
      ∀ t ∈ (removeScripts T).childNodes,
        isDifferentNode t (matchOf t L.childNodes) = false := by
  obtain ⟨h1, h2, h3⟩ := forEachNode_reordering events _ _ (reordering_of_isReordering h)
  have hd : (diff events T L).2.childNodes =
      (removeScripts T).childNodes.map
        (fun t => patchNode events t (matchOf t L.childNodes)) := by
    simp only [diff]
    rw [childNodes_setChildNodes_of_element _ _ hL, diffNodes, trimExtraNodes_eq_take, h1]
    simp
  refine ⟨hd, ?_, h2, fun t ht => by simpa [matchesNode] using h3 t ht⟩
  rw [hd, arranged, List.map_map, List.map_map]
  exact List.map_congr_left fun t _ => expando_patchNode events t _

/-- Witness of C8: live `[A, B]` against template `[B, A]` gives `[B, A]`, the node objects
tagged 2 and 1. -/
theorem diff_reorders_in_place_witness :
    (diff none baTemplate abRoot).2 = parsed "DIV" [] [tagged 2 "B" [] [], tagged 1 "A" [] []] ∧
      (diff none baTemplate abRoot).2.childNodes.map Node.expando =
        (arranged (removeScripts baTemplate).childNodes abRoot.childNodes).map Node.expando :=
  ⟨by with_unfolding_all rfl,
    (diff_reorders_in_place none baTemplate abRoot rfl (by with_unfolding_all rfl)).2.1⟩

/-! ## Custom elements -/

theorem descendants_eq (n : Node) : n.descendants = nodesOf n.childNodes := by
  cases n <;> simp [Node.descendants, Node.childNodes, nodesOf]

theorem nodesOf_append (xs ys : List Node) : nodesOf (xs ++ ys) = nodesOf xs ++ nodesOf ys := by
  induction xs with
  | nil => simp [nodesOf]
  | cons x xs ih => simp [nodesOf, ih]

theorem mem_nodesOf {x : Node} {ns : List Node} :
    x ∈ nodesOf ns ↔ ∃ n ∈ ns, x = n ∨ x ∈ nodesOf n.childNodes := by
  induction ns with
  | nil => simp [nodesOf]
  | cons n ns ih =>
    simp only [nodesOf, List.mem_cons, List.mem_append, ih, descendants_eq]
    constructor
    · rintro (h | h | ⟨m, hm, h⟩)
      · exact ⟨n, Or.inl rfl, Or.inl h⟩
      · exact ⟨n, Or.inl rfl, Or.inr h⟩
      · exact ⟨m, Or.inr hm, h⟩
    · rintro ⟨m, rfl | hm, h⟩
      · rcases h with h | h
        · exact Or.inl h
        · exact Or.inr (Or.inl h)
      · exact Or.inr (Or.inr ⟨m, hm, h⟩)

theorem nodesOf_subset {xs ys : List Node} (h : ∀ n ∈ xs, n ∈ ys) {x : Node}
    (hx : x ∈ nodesOf xs) : x ∈ nodesOf ys := by
  obtain ⟨n, hn, hxn⟩ := mem_nodesOf.mp hx
  exact mem_nodesOf.mpr ⟨n, h n hn, hxn⟩

theorem mem_nodesOf_self {n : Node} {ns : List Node} (h : n ∈ ns) : n ∈ nodesOf ns :=
  mem_nodesOf.mpr ⟨n, h, Or.inl rfl⟩

theorem mem_nodesOf_child {x n : Node} {ns : List Node} (h : n ∈ ns)
    (hx : x ∈ nodesOf n.childNodes) : x ∈ nodesOf ns :=
  mem_nodesOf.mpr ⟨n, h, Or.inr hx⟩

theorem expando_addDefaultAtts_head (events : Option Events) (n : Node) :
    (addDefaultAtts events n).expando = n.expando := by
  cases n with
  | element m t a p cs =>
    rw [addDefaultAtts, expando_setChildNodes]
    exact (addDefaultAttsLoop_attrsOnly events _ _ _).expando
  | text m d => simp [addDefaultAtts]
  | comment m d => simp [addDefaultAtts]

mutual
/-- Every node of a sanitized clone is a new object: none carries an out-of-band tag. -/
theorem expando_clone (events : Option Events) :
    ∀ t : Node, ∀ x ∈ nodesOf [addDefaultAtts events (cloneNode t)], x.expando = none
  | .element m tg a p cs => by
    intro x hx
    rw [cloneNode, addDefaultAtts] at hx
    obtain ⟨a', p', h'⟩ := addDefaultAttsLoop_attrsOnly events a.length 0
      (.element none tg a p (cloneNodes cs))
    rw [h'] at hx
    simp only [Node.setChildNodes, nodesOf, Node.descendants, List.append_nil,
      List.mem_cons] at hx
    rcases hx with rfl | hx
    · rfl
    · exact expando_cloneList events cs x hx
  | .text _ _ => by
    intro x hx
    simp only [cloneNode, addDefaultAtts, nodesOf, Node.descendants, List.append_nil,
      List.mem_singleton] at hx
    rw [hx]
    rfl
  | .comment _ _ => by
    intro x hx
    simp only [cloneNode, addDefaultAtts, nodesOf, Node.descendants, List.append_nil,
      List.mem_singleton] at hx
    rw [hx]
    rfl
/-- Every node of a list of sanitized clones is a new object. -/
theorem expando_cloneList (events : Option Events) :
    ∀ ts : List Node, ∀ x ∈ nodesOf (addDefaultAttsList events (cloneNodes ts)),
      x.expando = none
  | [] => by simp [cloneNodes, addDefaultAttsList, nodesOf]
  | t :: ts => by
    intro x hx
    rw [cloneNodes, addDefaultAttsList] at hx
    have : x ∈ nodesOf ([addDefaultAtts events (cloneNode t)] ++
        addDefaultAttsList events (cloneNodes ts)) := by simpa using hx
    rw [nodesOf_append] at this
    rcases List.mem_append.mp this with h | h
    · exact expando_clone events t x h
    · exact expando_cloneList events ts x h
end

theorem KeptFrom.of_mem {S : List Node} {x : Node} (h : x ∈ S) : KeptFrom S x :=
  fun _ _ => ⟨x, h, AttrsOnly.refl⟩

theorem KeptFrom.of_new {S : List Node} {x : Node} (h : x.expando = none) : KeptFrom S x := by
  intro _ he
  simp [h] at he

theorem isCustomElement_of_tag {n : Node} {tg : String} (h1 : n.nodeType = 1)
    (h2 : n.tagName? = some tg) : isCustomElement n = includes tg "-" := by
  cases n with
  | element m t a p cs =>
    simp only [Node.tagName?, Option.some.injEq] at h2
    simp [isCustomElement, Node.nodeName, h2]
  | text m d => simp [Node.nodeType] at h1
  | comment m d => simp [Node.nodeType] at h1

theorem nodeType_setChildNodes (n : Node) (cs : List Node) :
    (n.setChildNodes cs).nodeType = n.nodeType := by
  cases n <;> rfl

theorem tagName?_setChildNodes (n : Node) (cs : List Node) :
    (n.setChildNodes cs).tagName? = n.tagName? := by
  cases n <;> rfl

/-- The text step leaves the children of the live node, or puts one new text node there. -/
theorem keptFrom_patchContent {S : List Node} (t e : Node)
    (h : ∀ x ∈ nodesOf e.childNodes, x ∈ S) :
    ∀ x ∈ nodesOf (patchContent t e).childNodes, KeptFrom S x := by
  intro x hx
  unfold patchContent at hx
  simp only at hx
  split at hx
  · cases e with
    | element m tg a p cs =>
      simp only [Node.setTextContent, Node.childNodes] at hx
      split at hx
      · simp [nodesOf] at hx
      · simp only [nodesOf, Node.descendants, List.append_nil, List.mem_singleton] at hx
        exact KeptFrom.of_new (by rw [hx]; rfl)
    | text m d => simp [Node.setTextContent, Node.childNodes, nodesOf] at hx
    | comment m d => simp [Node.setTextContent, Node.childNodes, nodesOf] at hx
  · exact KeptFrom.of_mem (h x hx)

theorem patchContent_of_children (t e : Node) (h : t.childNodes.length ≠ 0) :
    patchContent t e = e := by
  simp [patchContent, getNodeContent, h, truthy]

theorem mem_nodesOf_singleton {x r : Node} :
    x ∈ nodesOf [r] ↔ x = r ∨ x ∈ nodesOf r.childNodes := by
  simp [nodesOf, descendants_eq]

theorem mem_nodesOf_cons {x r : Node} {rs : List Node} :
    x ∈ nodesOf (r :: rs) ↔ x ∈ nodesOf [r] ∨ x ∈ nodesOf rs := by
  have := nodesOf_append [r] rs
  simp only [List.singleton_append] at this
  rw [this, List.mem_append]

theorem not_custom_of_leaf {n : Node} (h : n.nodeType ≠ 1) :
    isCustomElement n = false ∧ n.childNodes = [] := by
  cases n with
  | element m t a p cs => simp [Node.nodeType] at h
  | text m d => exact ⟨by with_unfolding_all rfl, rfl⟩
  | comment m d => exact ⟨by with_unfolding_all rfl, rfl⟩

theorem stepHead_kept (events : Option Events) (patch : Node → Node) (t : Node)
    (ns S : List Node) (h : ∀ x ∈ nodesOf ns, x ∈ S)
    (hp : ∀ e, isDifferentNode t e = false → e ∈ S → (∀ x ∈ nodesOf e.childNodes, x ∈ S) →
      ∀ x ∈ nodesOf [patch e], KeptFrom S x) :
    (∀ x ∈ nodesOf [(stepHead events patch t ns).1], KeptFrom S x) ∧
      ∀ x ∈ nodesOf (stepHead events patch t ns).2, x ∈ S := by
  have hclone : ∀ x ∈ nodesOf [addDefaultAtts events (cloneNode t)], KeptFrom S x :=
    fun x hx => KeptFrom.of_new (expando_clone events t x hx)
  have hpatch : ∀ e ∈ ns, isDifferentNode t e = false →
      ∀ x ∈ nodesOf [patch e], KeptFrom S x := fun e he hd =>
    hp e hd (h e (mem_nodesOf_self he)) (fun x hx => h x (mem_nodesOf_child he hx))
  cases ns with
  | nil => exact ⟨hclone, by simp [stepHead, nodesOf]⟩
  | cons cur rest =>
    unfold stepHead
    by_cases hd : isDifferentNode t cur = true
    · simp only [hd, ↓reduceIte]
      cases hx : extractFirst (fun branch => !isDifferentNode t branch) rest with
      | none => exact ⟨hclone, h⟩
      | some r =>
        obtain ⟨a, rest'⟩ := r
        obtain ⟨h1, h2⟩ := extractFirst_mem _ _ _ _ hx
        obtain ⟨hf, _, _⟩ := extractFirst_some _ _ _ _ hx
        have hma := List.find?_some hf
        refine ⟨hpatch a (List.mem_cons_of_mem _ h1) (by simpa using hma), ?_⟩
        intro x hxm
        refine h x (nodesOf_subset ?_ hxm)
        intro n hn
        rcases List.mem_cons.mp hn with rfl | hn'
        · simp
        · exact List.mem_cons_of_mem _ (h2 n hn')
    · simp only [hd, Bool.false_eq_true, ↓reduceIte]
      refine ⟨hpatch cur (by simp) (by simpa using hd), ?_⟩
      intro x hxm
      exact h x (nodesOf_subset (fun n hn => List.mem_cons_of_mem _ hn) hxm)

mutual
/-- Patching an aligned live node of `S`: every tagged custom element of the result is a
node of `S` up to its own attributes. -/
theorem keptFrom_patchNode (events : Option Events) (S : List Node) :
    ∀ (t e : Node), isDifferentNode t e = false → e ∈ S →
      (∀ x ∈ nodesOf e.childNodes, x ∈ S) →
      ∀ x ∈ nodesOf [patchNode events t e], KeptFrom S x
  | .element m tg a p cs, e, hd, heS, hsub => by
    obtain ⟨hty, htag⟩ := isDifferentNode_false _ e hd
    have hA := diffAttributes_attrsOnly events (.element m tg a p cs) e
    have h1ty : (diffAttributes events (.element m tg a p cs) e).nodeType = 1 := by
      rw [hA.nodeType, hty]; rfl
    have h1tag : (diffAttributes events (.element m tg a p cs) e).tagName? = some tg := by
      rw [hA.tagName?, htag rfl]; rfl
    have h1sub : ∀ x ∈ nodesOf (diffAttributes events (.element m tg a p cs) e).childNodes,
        x ∈ S := by
      rw [hA.childNodes]; exact hsub
    intro x hx
    rw [mem_nodesOf_singleton, patchNode_element] at hx
    by_cases hh : includes tg "-" = true
    · simp only [hh, ↓reduceIte] at hx
      rcases hx with rfl | hx
      · exact fun _ _ => ⟨e, heS, hA⟩
      · exact KeptFrom.of_mem (h1sub x hx)
    · simp only [hh, Bool.false_eq_true, ↓reduceIte] at hx
      have h2ty := (nodeType_patchContent (.element m tg a p cs)
        (diffAttributes events (.element m tg a p cs) e)).trans h1ty
      have h2tag := (tagName?_patchContent (.element m tg a p cs)
        (diffAttributes events (.element m tg a p cs) e)).trans h1tag
      have h2sub := keptFrom_patchContent (S := S) (.element m tg a p cs)
        (diffAttributes events (.element m tg a p cs) e) h1sub
      have hdiff : ∀ ns, (∀ y ∈ nodesOf ns, y ∈ S) →
          ∀ y ∈ nodesOf (diffNodes events cs ns), KeptFrom S y := by
        intro ns hns y hy
        rw [diffNodes, trimExtraNodes_eq_take] at hy
        exact keptFrom_forEachNode events S cs ns hns y
          (nodesOf_subset (fun n hn => List.mem_of_mem_take hn) hy)
      have hshell : ∀ X : List Node, (∀ y ∈ nodesOf X, KeptFrom S y) →
          ∀ y, (y = (patchContent (.element m tg a p cs)
              (diffAttributes events (.element m tg a p cs) e)).setChildNodes X ∨
            y ∈ nodesOf ((patchContent (.element m tg a p cs)
              (diffAttributes events (.element m tg a p cs) e)).setChildNodes X).childNodes) →
          KeptFrom S y := by
        intro X hX y hy
        rcases hy with rfl | hy
        · intro hc _
          rw [isCustomElement_of_tag ((nodeType_setChildNodes _ _).trans h2ty)
            ((tagName?_setChildNodes _ _).trans h2tag)] at hc
          exact absurd hc hh
        · rw [childNodes_setChildNodes_of_element _ _ h2ty] at hy
          exact hX y hy
      split_ifs at hx with c1 c2 c3
      · exact hshell [] (by simp [nodesOf]) x hx
      · refine hshell _ ?_ x hx
        intro y hy
        rw [nodesOf_append] at hy
        rcases List.mem_append.mp hy with h | h
        · exact h2sub y h
        · exact hdiff [] (by simp [nodesOf]) y h
      · refine hshell _ (hdiff _ ?_) x hx
        rw [patchContent_of_children _ _ (by simpa [Node.childNodes] using c3)]
        exact h1sub
      · rcases hx with rfl | hx
        · intro hc _
          rw [isCustomElement_of_tag h2ty h2tag] at hc
          exact absurd hc hh
        · exact h2sub x hx
  | .text m d, e, hd, _, _ => by
    obtain ⟨hty, _⟩ := isDifferentNode_false _ e hd
    intro x hx
    have hr : (patchNode events (.text m d) e).nodeType ≠ 1 := by
      rw [patchNode_leaf events _ e (by simp [Node.nodeType])]
      split_ifs
      · rw [nodeType_setChildNodes, nodeType_patchContent, hty]
        simp [Node.nodeType]
      · rw [nodeType_patchContent, hty]
        simp [Node.nodeType]
    obtain ⟨h1, h2⟩ := not_custom_of_leaf hr
    rw [mem_nodesOf_singleton, h2] at hx
    rcases hx with rfl | hx
    · intro hc; rw [h1] at hc; exact absurd hc (by simp)
    · simp [nodesOf] at hx
  | .comment m d, e, hd, _, _ => by
    obtain ⟨hty, _⟩ := isDifferentNode_false _ e hd
    intro x hx
    have hr : (patchNode events (.comment m d) e).nodeType ≠ 1 := by
      rw [patchNode_leaf events _ e (by simp [Node.nodeType])]
      split_ifs
      · rw [nodeType_setChildNodes, nodeType_patchContent, hty]
        simp [Node.nodeType]
      · rw [nodeType_patchContent, hty]
        simp [Node.nodeType]
    obtain ⟨h1, h2⟩ := not_custom_of_leaf hr
    rw [mem_nodesOf_singleton, h2] at hx
    rcases hx with rfl | hx
    · intro hc; rw [h1] at hc; exact absurd hc (by simp)
    · simp [nodesOf] at hx
/-- The loop over a live list made of nodes of `S`: every tagged custom element of the
result is a node of `S` up to its own attributes. -/
theorem keptFrom_forEachNode (events : Option Events) (S : List Node) :
    ∀ (ts ns : List Node), (∀ x ∈ nodesOf ns, x ∈ S) →
      ∀ x ∈ nodesOf (forEachNode events ts 0 ns), KeptFrom S x
  | [], ns, h => by
    rw [forEachNode_nil]
    exact fun x hx => KeptFrom.of_mem (h x hx)
  | t :: ts, ns, h => by
    obtain ⟨h1, h2⟩ := stepHead_kept events (patchNode events t) t ns S h
      (fun e hd he hsub => keptFrom_patchNode events S t e hd he hsub)
    rw [forEachNode_zero]
    intro x hx
    rcases mem_nodesOf_cons.mp hx with hx | hx
    · exact h1 x hx
    · exact keptFrom_forEachNode events S ts _ h2 x hx
end

/-- The whole pass: a tagged custom element found in the live tree after `diff` is a node
of the live tree before, up to its own attributes. -/
theorem keptFrom_diff (events : Option Events) (T L : Node) :
    ∀ x ∈ nodesOf (diff events T L).2.childNodes, KeptFrom (nodesOf L.childNodes) x := by
  intro x hx
  cases L with
  | element m tg a p cs =>
    simp only [diff, Node.setChildNodes, Node.childNodes, diffNodes,
      trimExtraNodes_eq_take] at hx ⊢
    exact keptFrom_forEachNode events (nodesOf cs) _ cs (fun y hy => hy) x
      (nodesOf_subset (fun n hn => List.mem_of_mem_take hn) hx)
  | text m d => simp [diff, Node.setChildNodes, Node.childNodes, nodesOf] at hx
  | comment m d => simp [diff, Node.setChildNodes, Node.childNodes, nodesOf] at hx

/-! ## The boundary of custom elements -/

/-- C9: let `t` be a template element whose tag name has a hyphen and `e` a live node
aligned with it (`isDifferentNode(t, e)` is false).  The rest of the callback of `diff` on
the pair is `diffAttributes` and nothing else; the patched node is `e` up to its own
attributes and form properties (same node object, same child list with everything below);
the callback at the position of `e` changes no other live child; and after a whole pass
`diff(T, L, events)` every tagged hyphen-tagged element of the live tree is a node of the
live tree before the pass up to its own attributes. -/
theorem custom_element_children_untouched (events : Option Events) (t e : Node)
    (ht : t.nodeType = 1) (hc : isCustomElement t = true) (hd : isDifferentNode t e = false) :
    patchNode events t e = diffAttributes events t e ∧
      AttrsOnly e (patchNode events t e) ∧
      (patchNode events t e).childNodes = e.childNodes ∧
      (∀ (existingNodes : List Node) (index : Nat), existingNodes[index]? = some e →
        alignNode events (patchNode events t) t index existingNodes =
          modifyAt (diffAttributes events t) existingNodes index) ∧
      ∀ (T L x : Node), x ∈ nodesOf (diff events T L).2.childNodes →
        isCustomElement x = true → x.expando.isSome = true →
        ∃ e' ∈ nodesOf L.childNodes, AttrsOnly e' x := by
  have hfun : ∀ e', patchNode events t e' = diffAttributes events t e' := by
    intro e'
    cases t with
    | element m tg a p cs =>
      have : includes tg "-" = true := by simpa [isCustomElement, Node.nodeName] using hc
      rw [patchNode_element]
      simp only [this, ↓reduceIte]
    | text m d => simp [Node.nodeType] at ht
    | comment m d => simp [Node.nodeType] at ht
  have hA : AttrsOnly e (patchNode events t e) := by
    rw [hfun e]
    exact diffAttributes_attrsOnly events t e
  refine ⟨hfun e, hA, hA.childNodes, ?_, fun T L x hx h1 h2 => keptFrom_diff events T L x hx h1 h2⟩
  intro existingNodes index hidx
  have hpatch : patchNode events t = diffAttributes events t := funext hfun
  unfold alignNode
  simp only [hidx, hd, Bool.false_eq_true, ↓reduceIte, hpatch]

/-- Witness of C9: `<my-widget class="a"><span>X</span></my-widget>` against the live
`<my-widget><p>old</p></my-widget>`: the live widget takes the attribute and keeps its
child `<p>old</p>`, the node objects tagged 2 and 3. -/
theorem custom_element_children_untouched_witness :
    customNode.nodeType = 1 ∧ isCustomElement customNode = true ∧
      isDifferentNode customNode customLive = false ∧
      patchNode none customNode customLive =
        tagged 1 "MY-WIDGET" [("class", "a")] [tagged 2 "P" [] [.text (some 3) "old"]] ∧
      (patchNode none customNode customLive).childNodes = customLive.childNodes :=
  ⟨rfl, by with_unfolding_all rfl, by with_unfolding_all rfl, by with_unfolding_all rfl,
    (custom_element_children_untouched none customNode customLive rfl
      (by with_unfolding_all rfl) (by with_unfolding_all rfl)).2.2.1⟩

/-! ## The id of a patched or cloned node -/

theorem getAttr_setAttr_self (l : List Attr) (n v : String) :
    getAttr (setAttr l n v) n = some v := by
  induction l with
  | nil => simp [setAttr, getAttr]
  | cons x xs ih =>
    unfold setAttr
    by_cases hx : x.1 = n
    · simp [hx, getAttr]
    · simp only [hx, ↓reduceIte, getAttr, ih]

theorem getAttr_removeAttr_self (l : List Attr) (n : String) :
    getAttr (removeAttr l n) n = none := by
  induction l with
  | nil => simp [removeAttr, getAttr]
  | cons x xs ih =>
    unfold removeAttr
    by_cases hx : x.1 = n
    · simp only [hx, ↓reduceIte, ih]
    · simp only [hx, ↓reduceIte, getAttr, ih]

theorem getAttr_eq_none_of_not_mem (l : List Attr) (n : String)
    (h : n ∉ l.map Prod.fst) : getAttr l n = none := by
  induction l with
  | nil => simp [getAttr]
  | cons x xs ih =>
    simp only [List.map_cons, List.mem_cons, not_or] at h
    have hx : ¬x.1 = n := fun hx => h.1 hx.symm
    simp only [getAttr, hx, ↓reduceIte, ih h.2]

theorem skipAttribute_id (v : String) (events : Option Events) :
    skipAttribute "id" v events = false := by
  unfold skipAttribute
  have h1 : ["src", "href", "xlink:href"].contains "id" = false := by decide
  have h2 : startsWith "id" "@on" = false := by decide
  have h3 : startsWith "id" "#on" = false := by decide
  have h4 : startsWith "id" "on" = false := by decide
  simp [h1, h2, h3, h4]

theorem id?_of_element {n : Node} (h : n.nodeType = 1) :
    n.id? = some ((getAttr n.attributes "id").getD "") := by
  cases n with
  | element m t a p cs => rfl
  | text m d => simp [Node.nodeType] at h
  | comment m d => simp [Node.nodeType] at h

theorem attributes_setAttribute {n : Node} (h : n.nodeType = 1) (a v : String) :
    (n.setAttribute a v).attributes = setAttr n.attributes a v := by
  cases n with
  | element m t at1 p cs => rfl
  | text m d => simp [Node.nodeType] at h
  | comment m d => simp [Node.nodeType] at h

theorem getId_removeAttribute (e : Node) (n : String) (h : n ≠ "id") :
    getAttr (removeAttribute e n).attributes "id" = getAttr e.attributes "id" := by
  rw [attributes_removeAttribute, getAttr_removeAttr_ne _ _ _ h]

theorem getId_addAttribute (e : Node) (he : e.nodeType = 1) (n v : String)
    (events : Option Events) (hdel : hasDelegate events = false) :
    getAttr (addAttribute e n v events).attributes "id" =
      if n = "id" then some v else getAttr e.attributes "id" := by
  have hset : ∀ e' : Node, e'.nodeType = 1 → e'.attributes = e.attributes →
      getAttr (e'.setAttribute n v).attributes "id" =
        if n = "id" then some v else getAttr e.attributes "id" := by
    intro e' h1 h2
    rw [attributes_setAttribute h1, h2]
    by_cases hn : n = "id"
    · simp only [hn, ↓reduceIte, getAttr_setAttr_self]
    · simp only [hn, ↓reduceIte, getAttr_setAttr_ne _ _ _ _ hn]
  unfold addAttribute
  by_cases hs : skipAttribute n v events = true
  · have hn : n ≠ "id" := by
      rintro rfl
      rw [skipAttribute_id] at hs
      exact absurd hs (by simp)
    simp only [hs, ↓reduceIte, hn]
  · simp only [hs, Bool.false_eq_true, ↓reduceIte]
    split
    · simp [hasDelegate] at hdel
    · split
      · exact hset _ ((setProp_attrsOnly e n _).nodeType.trans he) (attributes_setProp e n _)
      · exact hset e he rfl

theorem not_startsWith_id (c : String) (hc : c = "@" ∨ c = "#") (n : String)
    (h : startsWith n c = true) : n ≠ "id" := by
  rintro rfl
  rcases hc with rfl | rfl
  · exact absurd h (by decide)
  · exact absurd h (by decide)

theorem ne_id_of_formAtts {n : String} (h : formAtts.contains n = true) : n ≠ "id" := by
  rintro rfl
  exact absurd h (by decide)

/-- One step of the first loop of `diffAttributes` on the attribute `id` of the live node. -/
theorem getId_diffAttributesAdd (events : Option Events) (template existing : Node)
    (he : existing.nodeType = 1) (att : Attr) (hdel : hasDelegate events = false)
    (hat : startsWith att.1 "@" = false) :
    getAttr (diffAttributesAdd events template existing att).attributes "id" =
      if att.1 = "id" then some att.2 else getAttr existing.attributes "id" := by
  unfold diffAttributesAdd
  simp only [hat, Bool.false_eq_true, ↓reduceIte]
  by_cases h1 : startsWith att.1 "#" = true
  · simp only [h1, ↓reduceIte, not_startsWith_id "#" (Or.inr rfl) _ h1]
  · simp only [h1, Bool.false_eq_true, ↓reduceIte]
    by_cases h2 : (formAtts.contains att.1 && formFields.contains (lowerTag template)) = true
    · have : formAtts.contains att.1 = true := by
        simp only [Bool.and_eq_true] at h2
        exact h2.1
      simp only [h2, ↓reduceIte, ne_id_of_formAtts this]
    · simp only [h2, Bool.false_eq_true, ↓reduceIte]
      by_cases h3 : (formAttsNoVal.contains att.1 && isFalsy att.2) = true
      · have hne : att.1 ≠ "id" := by
          rintro hid
          rw [hid] at h3
          exact absurd h3 (by simp [formAttsNoVal])
        simp only [h3, ↓reduceIte, hne, getId_removeAttribute _ _ hne]
      · simp only [h3, Bool.false_eq_true, ↓reduceIte]
        exact getId_addAttribute existing he _ _ events hdel

/-- The first loop of `diffAttributes` on the attribute `id` of the live node. -/
theorem getId_foldl (events : Option Events) (template : Node)
    (hdel : hasDelegate events = false) (atts : List Attr) :
    ∀ existing : Node, existing.nodeType = 1 →
      (∀ a ∈ atts, startsWith a.1 "@" = false) → (atts.map Prod.fst).Nodup →
      getAttr (atts.foldl (diffAttributesAdd events template) existing).attributes "id" =
        if hasAttr atts "id" = true then getAttr atts "id"
        else getAttr existing.attributes "id" := by
  induction atts with
  | nil => intro existing _ _ _; simp [hasAttr, getAttr]
  | cons a as ih =>
    intro existing he hat hnd
    simp only [List.map_cons, List.nodup_cons] at hnd
    have hstep := getId_diffAttributesAdd events template existing he a hdel (hat a (by simp))
    have he' : (diffAttributesAdd events template existing a).nodeType = 1 :=
      (diffAttributesAdd_attrsOnly events template existing a).nodeType.trans he
    rw [List.foldl_cons, ih _ he' (fun x hx => hat x (List.mem_cons_of_mem _ hx)) hnd.2, hstep]
    by_cases hid : a.1 = "id"
    · have hnone : getAttr as "id" = none :=
        getAttr_eq_none_of_not_mem as "id" (hid ▸ hnd.1)
      simp [hasAttr, getAttr, hid, hnone]
    · simp [hasAttr, getAttr, hid]

/-- The second loop of `diffAttributes` on the attribute `id` of the live node: it stays,
or it goes, and it stays when the template has an attribute `id`. -/
theorem getId_diffAttributesRemove (template : Node) (fuel : Nat) :
    ∀ (i : Nat) (existing : Node),
      (hasAttr template.attributes "id" = true →
        getAttr (diffAttributesRemove template fuel i existing).attributes "id" =
          getAttr existing.attributes "id") ∧
      (getAttr (diffAttributesRemove template fuel i existing).attributes "id" =
          getAttr existing.attributes "id" ∨
        getAttr (diffAttributesRemove template fuel i existing).attributes "id" = none) := by
  induction fuel with
  | zero => intro i existing; simp [diffAttributesRemove]
  | succ k ih =>
    intro i existing
    unfold diffAttributesRemove
    split
    · simp
    · rename_i name _ _
      by_cases h1 : hasAttr template.attributes name = true
      · simp only [h1, ↓reduceIte]
        exact ih _ _
      · simp only [h1, Bool.false_eq_true, ↓reduceIte]
        split
        · exact ih _ _
        · split
          · exact ih _ _
          · obtain ⟨ih1, ih2⟩ := ih (i + 1) (removeAttribute existing name)
            by_cases hn : name = "id"
            · subst hn
              have hnone : getAttr (removeAttribute existing "id").attributes "id" = none := by
                rw [attributes_removeAttribute, getAttr_removeAttr_self]
              refine ⟨fun h => absurd h h1, Or.inr ?_⟩
              rcases ih2 with h | h
              · rw [h, hnone]
              · exact h
            · have hsame := getId_removeAttribute existing name hn
              refine ⟨fun h => (ih1 h).trans hsame, ?_⟩
              rcases ih2 with h | h
              · exact Or.inl (h.trans hsame)
              · exact Or.inr h

theorem isPlainAttrs_spec {atts : List Attr} (h : isPlainAttrs atts = true) :
    (∀ a ∈ atts, startsWith a.1 "@" = false ∧ startsWith a.1 "#" = false) ∧
      (atts.map Prod.fst).Nodup := by
  simp only [isPlainAttrs, Bool.and_eq_true, List.all_eq_true, Bool.not_eq_true',
    decide_eq_true_eq] at h
  exact h

theorem id?_setChildNodes (n : Node) (cs : List Node) : (n.setChildNodes cs).id? = n.id? := by
  cases n <;> rfl

theorem id?_patchContent (t e : Node) : (patchContent t e).id? = e.id? := by
  unfold patchContent
  simp only
  split
  · cases e <;> rfl
  · rfl

theorem id?_patchNode (events : Option Events) (t e : Node) :
    (patchNode events t e).id? = (diffAttributes events t e).id? := by
  cases t with
  | element m tg a p cs =>
    rw [patchNode_element]
    simp only
    split_ifs <;> simp only [id?_setChildNodes, id?_patchContent]
  | text m d =>
    rw [patchNode_leaf events _ e (by simp [Node.nodeType])]
    have : diffAttributes events (.text m d) e = e := by simp [diffAttributes, Node.nodeType]
    rw [this]
    split_ifs <;> simp only [id?_setChildNodes, id?_patchContent]
  | comment m d =>
    rw [patchNode_leaf events _ e (by simp [Node.nodeType])]
    have : diffAttributes events (.comment m d) e = e := by
      simp [diffAttributes, Node.nodeType]
    rw [this]
    split_ifs <;> simp only [id?_setChildNodes, id?_patchContent]

theorem isDifferentNode_false_id (t e : Node) (ht : t.nodeType = 1)
    (h : isDifferentNode t e = false) : e.id? = t.id? := by
  unfold isDifferentNode at h
  simp only [Bool.or_eq_false_iff, bne_eq_false_iff_eq, Bool.and_eq_false_imp] at h
  have hsome : t.id?.isSome = true := by
    rw [id?_of_element ht]
    rfl
  exact (h.1.2 hsome).symm

/-- With no delegate and a plain template element, the attribute diff leaves the aligned
live node with the id of the template element. -/
theorem id?_diffAttributes (events : Option Events) (t e : Node)
    (hdel : hasDelegate events = false) (ht : t.nodeType = 1)
    (hplain : isPlainAttrs t.attributes = true) (hd : isDifferentNode t e = false) :
    (diffAttributes events t e).id? = t.id? := by
  obtain ⟨hat, hnd⟩ := isPlainAttrs_spec hplain
  have he : e.nodeType = 1 := (isDifferentNode_false _ _ hd).1.trans ht
  have hid := isDifferentNode_false_id t e ht hd
  rw [id?_of_element he, id?_of_element ht] at hid
  have hfold := getId_foldl events t hdel t.attributes e he (fun a ha => (hat a ha).1) hnd
  have h1ty : (t.attributes.foldl (diffAttributesAdd events t) e).nodeType = 1 :=
    (foldl_attrsOnly _ (diffAttributesAdd_attrsOnly events t) _ _).nodeType.trans he
  have hr := diffAttributes_attrsOnly events t e
  rw [id?_of_element (hr.nodeType.trans he), id?_of_element ht]
  unfold diffAttributes
  simp only [ht, ne_eq, not_true_eq_false, ↓reduceIte]
  obtain ⟨h2a, h2b⟩ := getId_diffAttributesRemove t
    (t.attributes.foldl (diffAttributesAdd events t) e).attributes.length 0
    (t.attributes.foldl (diffAttributesAdd events t) e)
  by_cases hhas : hasAttr t.attributes "id" = true
  · rw [h2a hhas, hfold]
    simp only [hhas, ↓reduceIte]
  · have hnone : getAttr t.attributes "id" = none := by
      simpa [hasAttr] using hhas
    simp only [hhas, Bool.false_eq_true, ↓reduceIte] at hfold
    rw [hnone] at hid ⊢
    rcases h2b with h | h
    · rw [h, hfold]
      exact Option.some.inj hid ▸ rfl
    · rw [h]

theorem mem_removeAttr {l : List Attr} {n : String} {a : Attr} (h : a ∈ removeAttr l n) :
    a ∈ l := by
  induction l with
  | nil => simp [removeAttr] at h
  | cons x xs ih =>
    unfold removeAttr at h
    split_ifs at h
    · exact List.mem_cons_of_mem _ (ih h)
    · rcases List.mem_cons.mp h with h' | h'
      · simp [h']
      · exact List.mem_cons_of_mem _ (ih h')

/-- With no delegate and no `@` or `#` name, the attribute loop of `addDefaultAtts` only
removes rejected attributes: the attribute `id` stays. -/
theorem getId_addDefaultAttsLoop (events : Option Events) (hdel : hasDelegate events = false)
    (fuel : Nat) :
    ∀ (i : Nat) (elem : Node),
      (∀ a ∈ elem.attributes, startsWith a.1 "@" = false ∧ startsWith a.1 "#" = false) →
      getAttr (addDefaultAttsLoop events fuel i elem).attributes "id" =
        getAttr elem.attributes "id" := by
  induction fuel with
  | zero => intro i elem _; rfl
  | succ k ih =>
    intro i elem hplain
    unfold addDefaultAttsLoop
    cases hget : elem.attributes[i]? with
    | none => rfl
    | some av =>
      obtain ⟨name, value⟩ := av
      have hmem : (name, value) ∈ elem.attributes := List.getElem?_mem hget
      obtain ⟨hn1, hn2⟩ := hplain _ hmem
      simp only at hn1 hn2
      simp only
      by_cases hs : skipAttribute name value events = true
      · have hne : name ≠ "id" := by
          rintro rfl
          rw [skipAttribute_id] at hs
          exact absurd hs (by simp)
        simp only [hs, ↓reduceIte]
        rw [ih _ _ ?_, getId_removeAttribute _ _ hne]
        intro a ha
        rw [attributes_removeAttribute] at ha
        exact hplain a (mem_removeAttr ha)
      · simp only [hs, Bool.false_eq_true, ↓reduceIte]
        split
        · simp [hasDelegate] at hdel
        · simp only [hn1, hn2, Bool.not_false, Bool.and_self, ↓reduceIte]
          exact ih _ _ hplain

theorem id?_addDefaultAtts_clone (events : Option Events) (hdel : hasDelegate events = false)
    (t : Node) (ht : t.nodeType = 1) (hplain : isPlainAttrs t.attributes = true) :
    (addDefaultAtts events (cloneNode t)).id? = t.id? := by
  cases t with
  | element m tg a p cs =>
    obtain ⟨hat, _⟩ := isPlainAttrs_spec hplain
    rw [cloneNode, addDefaultAtts, id?_setChildNodes]
    have hA := addDefaultAttsLoop_attrsOnly events a.length 0
      (.element none tg a p (cloneNodes cs))
    rw [id?_of_element (hA.nodeType.trans rfl),
      getId_addDefaultAttsLoop events hdel _ _ _ (by simpa [Node.attributes] using hat)]
    rfl
  | text m d => simp [Node.nodeType] at ht
  | comment m d => simp [Node.nodeType] at ht

theorem idsAgree_of_shell (t l : Node) (cs : List Node) (hl : l.nodeType = 1)
    (h1 : t.nodeType = 1 → l.id? = t.id?)
    (h3 : isCustomElement t = false → idsAgreeList t.childNodes cs = true) :
    idsAgree t (l.setChildNodes cs) = true := by
  cases t with
  | element m tg a p tcs =>
    rw [idsAgree, id?_setChildNodes, childNodes_setChildNodes_of_element _ _ hl, h1 rfl]
    simp only [beq_self_eq_true, Bool.true_and, Bool.or_eq_true]
    cases hh : includes tg "-" with
    | true => exact Or.inl rfl
    | false => exact Or.inr (h3 (by simpa [isCustomElement, Node.nodeName] using hh))
  | text m d => simp [idsAgree]
  | comment m d => simp [idsAgree]

theorem idsAgreeList_nil_left (ls : List Node) : idsAgreeList [] ls = true := by
  cases ls <;> simp [idsAgreeList]

theorem idsAgreeList_nil_right (ts : List Node) : idsAgreeList ts [] = true := by
  cases ts <;> simp [idsAgreeList]

theorem isPlain_element {m : Option Nat} {tg : String} {a : List Attr} {p : FormProps}
    {cs : List Node} (h : isPlain (.element m tg a p cs) = true) :
    isPlainAttrs a = true ∧ isPlainList cs = true := by
  simpa [isPlain] using h

mutual
/-- With no delegate, a sanitized clone of a plain template node has its ids. -/
theorem idsAgree_clone (events : Option Events) (hdel : hasDelegate events = false) :
    ∀ t : Node, isPlain t = true → idsAgree t (addDefaultAtts events (cloneNode t)) = true
  | .element m tg a p cs, hp => by
    obtain ⟨hpa, hpc⟩ := isPlain_element hp
    have hid := id?_addDefaultAtts_clone events hdel (.element m tg a p cs) rfl hpa
    rw [cloneNode, addDefaultAtts] at hid ⊢
    have hA := addDefaultAttsLoop_attrsOnly events a.length 0
      (.element none tg a p (cloneNodes cs))
    refine idsAgree_of_shell _ _ _ (hA.nodeType.trans rfl) (fun _ => ?_)
      (fun _ => idsAgreeList_clone events hdel cs hpc)
    rw [id?_setChildNodes] at hid
    exact hid
  | .text _ _, _ => by simp [idsAgree]
  | .comment _ _, _ => by simp [idsAgree]
/-- With no delegate, sanitized clones of a plain template list have its ids. -/
theorem idsAgreeList_clone (events : Option Events) (hdel : hasDelegate events = false) :
    ∀ ts : List Node, isPlainList ts = true →
      idsAgreeList ts (addDefaultAttsList events (cloneNodes ts)) = true
  | [], _ => by simp [cloneNodes, addDefaultAttsList, idsAgreeList]
  | t :: ts, hp => by
    simp only [isPlainList, Bool.and_eq_true] at hp
    simp only [cloneNodes, addDefaultAttsList, idsAgreeList, idsAgree_clone events hdel t hp.1,
      idsAgreeList_clone events hdel ts hp.2, Bool.and_self]
end

theorem idsAgree_stepHead (events : Option Events) (hdel : hasDelegate events = false)
    (patch : Node → Node) (t : Node) (ns : List Node) (hp : isPlain t = true)
    (hpatch : ∀ e, isDifferentNode t e = false → idsAgree t (patch e) = true) :
    idsAgree t (stepHead events patch t ns).1 = true := by
  cases ns with
  | nil => exact idsAgree_clone events hdel t hp
  | cons cur rest =>
    unfold stepHead
    by_cases hd : isDifferentNode t cur = true
    · simp only [hd, ↓reduceIte]
      cases hx : extractFirst (fun branch => !isDifferentNode t branch) rest with
      | none => exact idsAgree_clone events hdel t hp
      | some r =>
        obtain ⟨a, rest'⟩ := r
        obtain ⟨h1, _, _⟩ := extractFirst_some _ _ _ _ hx
        have := List.find?_some h1
        exact hpatch a (by simpa using this)
    · simp only [hd, Bool.false_eq_true, ↓reduceIte]
      exact hpatch cur (by simpa using hd)

mutual
/-- With no delegate, patching the aligned live node against a plain template node gives it
the ids of the template. -/
theorem idsAgree_patchNode (events : Option Events) (hdel : hasDelegate events = false) :
    ∀ (t e : Node), isPlain t = true → isDifferentNode t e = false →
      idsAgree t (patchNode events t e) = true
  | .element m tg a p cs, e, hp, hd => by
    obtain ⟨hpa, hpc⟩ := isPlain_element hp
    obtain ⟨hty, _⟩ := isDifferentNode_false _ e hd
    have hA := diffAttributes_attrsOnly events (.element m tg a p cs) e
    have h1ty : (diffAttributes events (.element m tg a p cs) e).nodeType = 1 := by
      rw [hA.nodeType, hty]; rfl
    have h1id := id?_diffAttributes events (.element m tg a p cs) e hdel rfl hpa hd
    have h2ty := (nodeType_patchContent (.element m tg a p cs)
      (diffAttributes events (.element m tg a p cs) e)).trans h1ty
    have h2id := (id?_patchContent (.element m tg a p cs)
      (diffAttributes events (.element m tg a p cs) e)).trans h1id
    have hdiff : ∀ ns, idsAgreeList cs (diffNodes events cs ns) = true := by
      intro ns
      rw [diffNodes, trimExtraNodes_eq_take]
      exact idsAgreeList_forEachNode events hdel cs ns hpc
    rw [patchNode_element]
    by_cases hh : includes tg "-" = true
    · simp only [hh, ↓reduceIte]
      rw [← setChildNodes_childNodes (diffAttributes events (.element m tg a p cs) e)]
      exact idsAgree_of_shell _ _ _ h1ty (fun _ => h1id)
        (fun hc => by simp [isCustomElement, Node.nodeName, hh] at hc)
    · simp only [hh, Bool.false_eq_true, ↓reduceIte]
      split_ifs with c1 c2 c3
      · exact idsAgree_of_shell _ _ _ h2ty (fun _ => h2id)
          (fun _ => idsAgreeList_nil_right _)
      · refine idsAgree_of_shell _ _ _ h2ty (fun _ => h2id) (fun _ => ?_)
        rw [List.length_eq_zero.mp c2.1, List.nil_append]
        exact hdiff []
      · exact idsAgree_of_shell _ _ _ h2ty (fun _ => h2id) (fun _ => hdiff _)
      · have hcs : cs = [] := List.length_eq_zero.mp (by simpa using c3)
        subst hcs
        rw [← setChildNodes_childNodes (patchContent _ _)]
        exact idsAgree_of_shell _ _ _ h2ty (fun _ => h2id)
          (fun _ => idsAgreeList_nil_left _)
  | .text _ _, _, _, _ => by simp [idsAgree]
  | .comment _ _, _, _, _ => by simp [idsAgree]
/-- With no delegate, after the loop over a plain template list the first `ts.length` live
children have the ids of the template. -/
theorem idsAgreeList_forEachNode (events : Option Events)
    (hdel : hasDelegate events = false) :
    ∀ (ts ns : List Node), isPlainList ts = true →
      idsAgreeList ts ((forEachNode events ts 0 ns).take ts.length) = true
  | [], ns, _ => by simp [idsAgreeList]
  | t :: ts, ns, hp => by
    simp only [isPlainList, Bool.and_eq_true] at hp
    rw [forEachNode_zero]
    simp only [List.length_cons, List.take_succ_cons, idsAgreeList, Bool.and_eq_true]
    exact ⟨idsAgree_stepHead events hdel _ t ns hp.1
        (fun e he => idsAgree_patchNode events hdel t e hp.1 he),
      idsAgreeList_forEachNode events hdel ts _ hp.2⟩
end

mutual
theorem isPlain_removeScripts : ∀ n : Node, isPlain n = true → isPlain (removeScripts n) = true
  | .element m t a p cs, h => by
    obtain ⟨h1, h2⟩ := isPlain_element h
    simp only [removeScripts, isPlain, h1, isPlainList_removeScriptsList cs h2, Bool.and_self]
  | .text _ _, _ => by simp [removeScripts, isPlain]
  | .comment _ _, _ => by simp [removeScripts, isPlain]
theorem isPlainList_removeScriptsList :
    ∀ ns : List Node, isPlainList ns = true → isPlainList (removeScriptsList ns) = true
  | [], _ => by simp [removeScriptsList, isPlainList]
  | n :: ns, h => by
    simp only [isPlainList, Bool.and_eq_true] at h
    rw [removeScriptsList]
    split_ifs
    · exact isPlainList_removeScriptsList ns h.2
    · simp only [isPlainList, isPlain_removeScripts n h.1,
        isPlainList_removeScriptsList ns h.2, Bool.and_self]
end

/-! ## Structural convergence -/

/-- Putting the reversed head list node by node in front of the body list prepends the head
list. -/
theorem relocateHead_eq_append (hs bs : List Node) : relocateHead hs bs = hs ++ bs := by
  unfold relocateHead
  induction hs with
  | nil => rfl
  | cons h hs ih => simp [List.foldl_append, ih]

/-- C18: when the parsed document has head children `h1 .. hn` (`n ≥ 1`) and a body with the
children `b1 .. bm`, `stringToHTML` returns that body with the children `h1, .., hn, b1, ..,
bm`, in this order. -/
theorem stringToHTML_head_order (parse : String → Document) (str : String) (head body : Node)
    (hhead : (parse str).head = some head) (hbody : (parse str).body = some body)
    (hb : body.nodeType = 1) (hn : head.childNodes ≠ []) :
    stringToHTML parse str = some (body.setChildNodes (head.childNodes ++ body.childNodes)) ∧
      ∀ r, stringToHTML parse str = some r →
        r.childNodes = head.childNodes ++ body.childNodes := by
  have h1 : stringToHTML parse str =
      some (body.setChildNodes (head.childNodes ++ body.childNodes)) := by
    have hlen : head.childNodes.length ≠ 0 := fun h => hn (List.length_eq_zero.mp h)
    simp only [stringToHTML, hhead, hbody, hlen, ne_eq, not_false_eq_true, ↓reduceIte,
      relocateHead_eq_append]
  refine ⟨h1, fun r hr => ?_⟩
  rw [h1] at hr
  rw [← Option.some.inj hr, childNodes_setChildNodes_of_element _ _ hb]

/-- Witness of C18: head children `<title>`, `<style>` and body child `<p>` give the body
children `<title>`, `<style>`, `<p>`. -/
theorem stringToHTML_head_order_witness :
    stringToHTML (fun _ => headDocument) "" =
      some (parsed "BODY" []
        [parsed "TITLE" [] [.text none "t"], parsed "STYLE" [] [], parsed "P" [] []]) :=
  (stringToHTML_head_order (fun _ => headDocument) ""
    (parsed "HEAD" [] [parsed "TITLE" [] [.text none "t"], parsed "STYLE" [] []])
    (parsed "BODY" [] [parsed "P" [] []]) rfl rfl rfl (by simp [parsed, Node.childNodes])).1

/-! ## The lookahead -/

theorem find?_first (p : Node → Bool) (l : List Node) (a : Node) (h : l.find? p = some a) :
    l[l.findIdx p]? = some a ∧ p a = true ∧
      ∀ k b, k < l.findIdx p → l[k]? = some b → p b = false := by
  induction l with
  | nil => simp at h
  | cons x xs ih =>
    by_cases hx : p x = true
    · simp only [List.find?_cons, hx, Option.some.injEq] at h
      subst h
      simp [List.findIdx_cons, hx]
    · simp only [List.find?_cons, hx] at h
      obtain ⟨h1, h2, h3⟩ := ih h
      simp only [List.findIdx_cons, hx, cond_false, List.getElem?_cons_succ]
      refine ⟨h1, h2, ?_⟩
      intro k b hk hb
      cases k with
      | zero =>
        simp only [List.getElem?_cons_zero, Option.some.injEq] at hb
        subst hb
        simpa using hx
      | succ k =>
        simp only [List.getElem?_cons_succ] at hb
        exact h3 k b (by omega) hb

/-- C19: `aheadInTree(node, existingNodes, index)` returns the live child of the smallest
position after `index` that is not different from `node` (its position is `aheadPosition`),
and returns nothing exactly when every child after `index` is different; and when it returns
nothing at a mismatched position the callback of `diff` inserts the sanitized clone in front
of the live child at `index`: the list is one longer, the clone is at `index` and the old
child at `index + 1`. -/
theorem aheadInTree_first_match (events : Option Events) (node : Node)
    (existingNodes : List Node) (index : Nat) :
    (∀ a, aheadInTree node existingNodes index = some a →
      index < aheadPosition node existingNodes index ∧
        existingNodes[aheadPosition node existingNodes index]? = some a ∧
        isDifferentNode node a = false ∧
        ∀ k b, index < k → k < aheadPosition node existingNodes index →
          existingNodes[k]? = some b → isDifferentNode node b = true) ∧
      (aheadInTree node existingNodes index = none ↔
        ∀ k b, index < k → existingNodes[k]? = some b → isDifferentNode node b = true) ∧
      ∀ (patch : Node → Node) (cur : Node), existingNodes[index]? = some cur →
        isDifferentNode node cur = true → aheadInTree node existingNodes index = none →
        alignNode events patch node index existingNodes =
            insertBefore existingNodes index (addDefaultAtts events (cloneNode node)) ∧
          (alignNode events patch node index existingNodes).length =
            existingNodes.length + 1 ∧
          (alignNode events patch node index existingNodes)[index]? =
            some (addDefaultAtts events (cloneNode node)) ∧
          (alignNode events patch node index existingNodes)[index + 1]? = some cur := by
  refine ⟨?_, ?_, ?_⟩
  · intro a ha
    obtain ⟨h1, h2, h3⟩ := find?_first _ _ a ha
    refine ⟨by unfold aheadPosition; omega, ?_, by simpa using h2, ?_⟩
    · rw [List.getElem?_drop] at h1
      exact h1
    · intro k b hk1 hk2 hb
      have := h3 (k - (index + 1)) b (by unfold aheadPosition at hk2; omega)
        (by rw [List.getElem?_drop, show index + 1 + (k - (index + 1)) = k from by omega]
            exact hb)
      simpa using this
  · unfold aheadInTree
    rw [List.find?_eq_none]
    constructor
    · intro h k b hk hb
      have hmem : b ∈ existingNodes.drop (index + 1) := by
        apply List.getElem?_mem (n := k - (index + 1))
        rw [List.getElem?_drop, show index + 1 + (k - (index + 1)) = k from by omega]
        exact hb
      simpa using h b hmem
    · intro h b hb
      obtain ⟨n, hn⟩ := List.getElem?_of_mem hb
      rw [List.getElem?_drop] at hn
      simpa using h (index + 1 + n) b (by omega) hn
  · intro patch cur hcur hd hnone
    have hlt : index < existingNodes.length := by
      by_contra hge
      rw [List.getElem?_eq_none (by omega)] at hcur
      exact absurd hcur (by simp)
    have hal : alignNode events patch node index existingNodes =
        insertBefore existingNodes index (addDefaultAtts events (cloneNode node)) := by
      unfold alignNode
      simp only [hcur, hd, ↓reduceIte, hnone]
    have htake : (existingNodes.take index).length = index := by
      rw [List.length_take]
      omega
    refine ⟨hal, ?_, ?_, ?_⟩
    · rw [hal, insertBefore]
      simp only [List.length_append, List.length_cons, List.length_take, List.length_drop]
      omega
    · rw [hal, insertBefore, List.getElem?_append_right (by omega), htake]
      simp
    · rw [hal, insertBefore, List.getElem?_append_right (by omega), htake]
      simp only [Nat.add_sub_cancel_left, List.getElem?_cons_succ, List.getElem?_cons_zero]
      rw [List.getElem?_drop]
      simpa using hcur

/-- Witness of C19 on the live children `<p>`, `<span>`, `<b>`, `<span id="s">`, `<span>`:
from position 1 the template node `<span>` finds the child at position 4 (tagged 5), not the
child at position 1 it starts from nor the different `<span id="s">` at position 3; and the
template node `<i>`, found nowhere ahead, is inserted as a clone in front of position 1. -/
theorem aheadInTree_first_match_witness :
    aheadInTree (parsed "SPAN" [] []) aheadNodes 1 = some (tagged 5 "SPAN" [] []) ∧
      aheadPosition (parsed "SPAN" [] []) aheadNodes 1 = 4 ∧
      1 < aheadPosition (parsed "SPAN" [] []) aheadNodes 1 ∧
      aheadInTree (parsed "I" [] []) aheadNodes 1 = none ∧
      (alignNode none id (parsed "I" [] []) 1 aheadNodes).length = aheadNodes.length + 1 :=
  ⟨by with_unfolding_all rfl, by with_unfolding_all rfl,
    ((aheadInTree_first_match none (parsed "SPAN" [] []) aheadNodes 1).1 _
      (by with_unfolding_all rfl)).1,
    by with_unfolding_all rfl,
    ((aheadInTree_first_match none (parsed "I" [] []) aheadNodes 1).2.2 id
      (tagged 2 "SPAN" [] []) (by with_unfolding_all rfl) (by with_unfolding_all rfl)
      (by with_unfolding_all rfl)).2.1⟩

/-! ## `isDifferentNode` -/

set_option maxRecDepth 8000 in
/-- C13, as stated, fails: the template comment with empty data is a leaf aligned with the
live comment `x` of the same kind, and after `diff` the live comment still reads `x`; and
the childless template `<my-widget>` is a leaf aligned with the live `<my-widget>hello
</my-widget>`, which keeps its text, the pass stopping at custom elements. -/
theorem text_content_counterexample :
    isDifferentNode (.comment none "") (.comment (some 1) "x") = false ∧
      (diff none emptyCommentTemplate commentRoot).2 = commentRoot ∧
      (Node.comment (some 1) "x").textContent ≠ (Node.comment none "").textContent ∧
      isDifferentNode (parsed "MY-WIDGET" [] []) (tagged 1 "MY-WIDGET" [] [.text none "hello"])
        = false ∧
      (patchNode none (parsed "MY-WIDGET" [] [])
        (tagged 1 "MY-WIDGET" [] [.text none "hello"])).textContent = "hello" ∧
      (parsed "MY-WIDGET" [] []).textContent = "" :=
  ⟨by with_unfolding_all rfl, by with_unfolding_all rfl, by simp [Node.textContent],
    by with_unfolding_all rfl, by with_unfolding_all rfl, by with_unfolding_all rfl⟩

theorem textContentList_nil : textContentList [] = "" := by
  rw [textContentList]

theorem textContent_of_no_children {n : Node} (h1 : n.nodeType = 1) (h2 : n.childNodes = []) :
    n.textContent = "" := by
  cases n with
  | element m t a p cs =>
    simp only [Node.childNodes] at h2
    rw [Node.textContent, h2, textContentList_nil]
  | text m d => simp [Node.nodeType] at h1
  | comment m d => simp [Node.nodeType] at h1

/-- C13, amended: let `t` be a template leaf (no children) that is not a hyphen-tagged
element, aligned with the live node `e`.  If `t` is a childless element, or a text or comment
node with non-empty content, the text content of the patched live node is the text content
of `t`; and when the contents of a text or comment node already agree, the live node is not
written. -/
theorem leaf_text_converges (events : Option Events) (t e : Node) (hleaf : t.childNodes = [])
    (hc : isCustomElement t = false) (hd : isDifferentNode t e = false)
    (hne : t.nodeType = 1 ∨ t.textContent ≠ "") :
    (patchNode events t e).textContent = t.textContent ∧
      (t.nodeType ≠ 1 → e.textContent = t.textContent → patchNode events t e = e) := by
  obtain ⟨hty, _⟩ := isDifferentNode_false t e hd
  cases t with
  | element m tg a p cs =>
    simp only [Node.childNodes] at hleaf
    subst hleaf
    have hh : includes tg "-" = false := by simpa [isCustomElement, Node.nodeName] using hc
    have hA := diffAttributes_attrsOnly events (.element m tg a p []) e
    have h1ty : (diffAttributes events (.element m tg a p []) e).nodeType = 1 := by
      rw [hA.nodeType, hty]; rfl
    have hpc : patchContent (.element m tg a p [])
        (diffAttributes events (.element m tg a p []) e) =
        diffAttributes events (.element m tg a p []) e := by
      simp [patchContent, getNodeContent, Node.childNodes, Node.textContent,
        textContentList_nil, truthy]
    refine ⟨?_, fun h => absurd rfl h⟩
    rw [patchNode_element]
    simp only [hh, Bool.false_eq_true, ↓reduceIte, hpc, List.length_nil, ne_eq,
      not_true_eq_false, and_false, true_and]
    rw [show (Node.element m tg a p []).textContent = "" from
      textContent_of_no_children rfl rfl]
    split_ifs with c1
    · exact textContent_of_no_children h1ty (List.length_eq_zero.mp (by simpa using c1))
    · exact textContent_of_no_children ((nodeType_setChildNodes _ _).trans h1ty)
        (childNodes_setChildNodes_of_element _ _ h1ty)
  | text m d =>
    have hd' : d ≠ "" := by
      rcases hne with h | h
      · simp [Node.nodeType] at h
      · simpa [Node.textContent] using h
    cases e with
    | element m' tg' a' p' cs' => simp [Node.nodeType] at hty
    | comment m' d' => simp [Node.nodeType] at hty
    | text m' d' =>
      rw [patchNode_leaf events _ _ (by simp [Node.nodeType])]
      by_cases hdd : d = d'
      · subst hdd
        simp [patchContent, getNodeContent, Node.childNodes, Node.textContent, truthy]
      · have hdd' : ¬ d' = d := fun h => hdd h.symm
        simp [patchContent, getNodeContent, Node.childNodes, Node.textContent, truthy, hd',
          hdd, hdd', Node.setTextContent, Node.setChildNodes]
  | comment m d =>
    have hd' : d ≠ "" := by
      rcases hne with h | h
      · simp [Node.nodeType] at h
      · simpa [Node.textContent] using h
    cases e with
    | element m' tg' a' p' cs' => simp [Node.nodeType] at hty
    | text m' d' => simp [Node.nodeType] at hty
    | comment m' d' =>
      rw [patchNode_leaf events _ _ (by simp [Node.nodeType])]
      by_cases hdd : d = d'
      · subst hdd
        simp [patchContent, getNodeContent, Node.childNodes, Node.textContent, truthy]
      · have hdd' : ¬ d' = d := fun h => hdd h.symm
        simp [patchContent, getNodeContent, Node.childNodes, Node.textContent, truthy, hd',
          hdd, hdd', Node.setTextContent, Node.setChildNodes]

/-- Witness of the amended C13: the template text `new` against the live text `old`
(tagged 1): the live text node reads `new`. -/
theorem leaf_text_converges_witness :
    patchNode none (.text none "new") (.text (some 1) "old") = .text (some 1) "new" ∧
      (patchNode none (.text none "new") (.text (some 1) "old")).textContent =
        (Node.text none "new").textContent :=
  ⟨by with_unfolding_all rfl,
    (leaf_text_converges none (.text none "new") (.text (some 1) "old") rfl
      (by with_unfolding_all rfl) (by with_unfolding_all rfl)
      (Or.inr (by decide))).1⟩

/-! ## Falsy sentinels -/

/-- The falsy sentinels are exactly the eight strings of the source. -/
theorem isFalsy_iff_sentinel (s : String) :
    isFalsy s = true ↔
      s ∈ ["false", "null", "undefined", "0", "-0", "NaN", "0n", "-0n"] := by
  simp [isFalsy]

/-- C14, the failing input: the template `<div @checked="true">` against the live `<div>`,
no delegate.  The attribute has the real name `checked`, its value is not a falsy sentinel,
and a `div` is no form field, so it is not skipped as form-field state.  The first loop of
`diffAttributes` sets it (attribute `checked`, property on), and the second loop, which
finds no attribute named `checked` in the template, removes it again: after
`diffAttributes` the live node has no attribute `checked` and the property is off. -/
theorem alias_checked_is_removed :
    isFalsy "true" = false ∧
      formFields.contains (lowerTag aliasCheckedDiv) = false ∧
      diffAttributesAdd none aliasCheckedDiv (tagged 1 "DIV" [] []) ("@checked", "true") =
        .element (some 1) "DIV" [("checked", "true")] ⟨none, some " ", none⟩ [] ∧
      diffAttributes none aliasCheckedDiv (tagged 1 "DIV" [] []) =
        .element (some 1) "DIV" [] ⟨none, some "", none⟩ [] ∧
      getAttr (diffAttributes none aliasCheckedDiv (tagged 1 "DIV" [] [])).attributes
        "checked" = none :=
  ⟨by decide, by decide, by with_unfolding_all rfl, by with_unfolding_all rfl,
    by with_unfolding_all rfl⟩

/-! ## The template after the pass -/

mutual
/-- A node without script elements is left as it is by `removeScripts`. -/
theorem removeScripts_of_noScript : ∀ n : Node, hasScript n = false → removeScripts n = n
  | .element m t a p cs, h => by
    rw [hasScript, Bool.or_eq_false_iff] at h
    rw [removeScripts, removeScriptsList_of_noScript cs h.2]
  | .text _ _, _ => by simp [removeScripts]
  | .comment _ _, _ => by simp [removeScripts]
/-- A child list without script elements is left as it is. -/
theorem removeScriptsList_of_noScript :
    ∀ ns : List Node, hasScriptList ns = false → removeScriptsList ns = ns
  | [], _ => by simp [removeScriptsList]
  | n :: ns, h => by
    rw [hasScriptList, Bool.or_eq_false_iff] at h
    have hn : isScript n = false := by
      have := h.1
      rw [hasScript_eq, Bool.or_eq_false_iff] at this
      exact this.1
    rw [removeScriptsList]
    simp only [hn, Bool.false_eq_true, ↓reduceIte]
    rw [removeScripts_of_noScript n h.1, removeScriptsList_of_noScript ns h.2]
end

theorem fromLive_of_mem {S : List Node} {x : Node} (h : x ∈ S) : FromLive S x :=
  fun _ => ⟨x, h, rfl⟩

theorem fromLive_of_new {S : List Node} {x : Node} (h : x.expando = none) : FromLive S x := by
  intro he
  simp [h] at he

/-- The text step leaves the children of the live node, or puts one new text node there. -/
theorem fromLive_patchContent {S : List Node} (t e : Node)
    (h : ∀ x ∈ nodesOf e.childNodes, x ∈ S) :
    ∀ x ∈ nodesOf (patchContent t e).childNodes, FromLive S x := by
  intro x hx
  unfold patchContent at hx
  simp only at hx
  split at hx
  · cases e with
    | element m tg a p cs =>
      simp only [Node.setTextContent, Node.childNodes] at hx
      split at hx
      · simp [nodesOf] at hx
      · simp only [nodesOf, Node.descendants, List.append_nil, List.mem_singleton] at hx
        exact fromLive_of_new (by rw [hx]; rfl)
    | text m d => simp [Node.setTextContent, Node.childNodes, nodesOf] at hx
    | comment m d => simp [Node.setTextContent, Node.childNodes, nodesOf] at hx
  · exact fromLive_of_mem (h x hx)

theorem stepHead_fromLive (events : Option Events) (patch : Node → Node) (t : Node)
    (ns S : List Node) (h : ∀ x ∈ nodesOf ns, x ∈ S)
    (hp : ∀ e, isDifferentNode t e = false → e ∈ S → (∀ x ∈ nodesOf e.childNodes, x ∈ S) →
      ∀ x ∈ nodesOf [patch e], FromLive S x) :
    (∀ x ∈ nodesOf [(stepHead events patch t ns).1], FromLive S x) ∧
      ∀ x ∈ nodesOf (stepHead events patch t ns).2, x ∈ S := by
  have hclone : ∀ x ∈ nodesOf [addDefaultAtts events (cloneNode t)], FromLive S x :=
    fun x hx => fromLive_of_new (expando_clone events t x hx)
  have hpatch : ∀ e ∈ ns, isDifferentNode t e = false →
      ∀ x ∈ nodesOf [patch e], FromLive S x := fun e he hd =>
    hp e hd (h e (mem_nodesOf_self he)) (fun x hx => h x (mem_nodesOf_child he hx))
  cases ns with
  | nil => exact ⟨hclone, by simp [stepHead, nodesOf]⟩
  | cons cur rest =>
    unfold stepHead
    by_cases hd : isDifferentNode t cur = true
    · simp only [hd, ↓reduceIte]
      cases hx : extractFirst (fun branch => !isDifferentNode t branch) rest with
      | none => exact ⟨hclone, h⟩
      | some r =>
        obtain ⟨a, rest'⟩ := r
        obtain ⟨h1, h2⟩ := extractFirst_mem _ _ _ _ hx
        obtain ⟨hf, _, _⟩ := extractFirst_some _ _ _ _ hx
        have hma := List.find?_some hf
        refine ⟨hpatch a (List.mem_cons_of_mem _ h1) (by simpa using hma), ?_⟩
        intro x hxm
        refine h x (nodesOf_subset ?_ hxm)
        intro n hn
        rcases List.mem_cons.mp hn with rfl | hn'
        · simp
        · exact List.mem_cons_of_mem _ (h2 n hn')
    · simp only [hd, Bool.false_eq_true, ↓reduceIte]
      refine ⟨hpatch cur (by simp) (by simpa using hd), ?_⟩
      intro x hxm
      exact h x (nodesOf_subset (fun n hn => List.mem_cons_of_mem _ hn) hxm)

mutual
/-- Patching an aligned live node of `S`: every tagged node of the result is the object of
a node of `S`. -/
theorem fromLive_patchNode (events : Option Events) (S : List Node) :
    ∀ (t e : Node), isDifferentNode t e = false → e ∈ S →
      (∀ x ∈ nodesOf e.childNodes, x ∈ S) →
      ∀ x ∈ nodesOf [patchNode events t e], FromLive S x
  | .element m tg a p cs, e, hd, heS, hsub => by
    obtain ⟨hty, htag⟩ := isDifferentNode_false _ e hd
    have hA := diffAttributes_attrsOnly events (.element m tg a p cs) e
    have h1ty : (diffAttributes events (.element m tg a p cs) e).nodeType = 1 := by
      rw [hA.nodeType, hty]; rfl
    have h1sub : ∀ x ∈ nodesOf (diffAttributes events (.element m tg a p cs) e).childNodes,
        x ∈ S := by
      rw [hA.childNodes]; exact hsub
    intro x hx
    rw [mem_nodesOf_singleton] at hx
    rcases hx with rfl | hx
    · exact fun _ => ⟨e, heS, (expando_patchNode events _ e).symm⟩
    rw [patchNode_element] at hx
    by_cases hh : includes tg "-" = true
    · simp only [hh, ↓reduceIte] at hx
      exact fromLive_of_mem (h1sub x hx)
    · simp only [hh, Bool.false_eq_true, ↓reduceIte] at hx
      have h2ty := (nodeType_patchContent (.element m tg a p cs)
        (diffAttributes events (.element m tg a p cs) e)).trans h1ty
      have h2sub := fromLive_patchContent (S := S) (.element m tg a p cs)
        (diffAttributes events (.element m tg a p cs) e) h1sub
      have hdiff : ∀ ns, (∀ y ∈ nodesOf ns, y ∈ S) →
          ∀ y ∈ nodesOf (diffNodes events cs ns), FromLive S y := by
        intro ns hns y hy
        rw [diffNodes, trimExtraNodes_eq_take] at hy
        exact fromLive_forEachNode events S cs ns hns y
          (nodesOf_subset (fun n hn => List.mem_of_mem_take hn) hy)
      split_ifs at hx with c1 c2 c3
      · rw [childNodes_setChildNodes_of_element _ _ h2ty] at hx
        simp [nodesOf] at hx
      · rw [childNodes_setChildNodes_of_element _ _ h2ty, nodesOf_append] at hx
        rcases List.mem_append.mp hx with h | h
        · exact h2sub x h
        · exact hdiff [] (by simp [nodesOf]) x h
      · rw [childNodes_setChildNodes_of_element _ _ h2ty] at hx
        refine hdiff _ ?_ x hx
        rw [patchContent_of_children _ _ (by simpa [Node.childNodes] using c3)]
        exact h1sub
      · exact h2sub x hx
  | .text m d, e, hd, heS, _ => by
    obtain ⟨hty, _⟩ := isDifferentNode_false _ e hd
    intro x hx
    have hr : (patchNode events (.text m d) e).nodeType ≠ 1 := by
      rw [patchNode_leaf events _ e (by simp [Node.nodeType])]
      split_ifs
      · rw [nodeType_setChildNodes, nodeType_patchContent, hty]
        simp [Node.nodeType]
      · rw [nodeType_patchContent, hty]
        simp [Node.nodeType]
    obtain ⟨_, h2⟩ := not_custom_of_leaf hr
    rw [mem_nodesOf_singleton, h2] at hx
    rcases hx with rfl | hx
    · exact fun _ => ⟨e, heS, (expando_patchNode events _ e).symm⟩
    · simp [nodesOf] at hx
  | .comment m d, e, hd, heS, _ => by
    obtain ⟨hty, _⟩ := isDifferentNode_false _ e hd
    intro x hx
    have hr : (patchNode events (.comment m d) e).nodeType ≠ 1 := by
      rw [patchNode_leaf events _ e (by simp [Node.nodeType])]
      split_ifs
      · rw [nodeType_setChildNodes, nodeType_patchContent, hty]
        simp [Node.nodeType]
      · rw [nodeType_patchContent, hty]
        simp [Node.nodeType]
    obtain ⟨_, h2⟩ := not_custom_of_leaf hr
    rw [mem_nodesOf_singleton, h2] at hx
    rcases hx with rfl | hx
    · exact fun _ => ⟨e, heS, (expando_patchNode events _ e).symm⟩
    · simp [nodesOf] at hx
/-- The loop over a live list made of nodes of `S`: every tagged node of the result is the
object of a node of `S`. -/
theorem fromLive_forEachNode (events : Option Events) (S : List Node) :
    ∀ (ts ns : List Node), (∀ x ∈ nodesOf ns, x ∈ S) →
      ∀ x ∈ nodesOf (forEachNode events ts 0 ns), FromLive S x
  | [], ns, h => by
    rw [forEachNode_nil]
    exact fun x hx => fromLive_of_mem (h x hx)
  | t :: ts, ns, h => by
    obtain ⟨h1, h2⟩ := stepHead_fromLive events (patchNode events t) t ns S h
      (fun e hd he hsub => fromLive_patchNode events S t e hd he hsub)
    rw [forEachNode_zero]
    intro x hx
    rcases mem_nodesOf_cons.mp hx with hx | hx
    · exact h1 x hx
    · exact fromLive_forEachNode events S ts _ h2 x hx
end

/-- The whole pass: a tagged node found in the live tree after `diff` is the object of a
node of the live tree before. -/
theorem fromLive_diff (events : Option Events) (T L : Node) :
    ∀ x ∈ nodesOf (diff events T L).2.childNodes, FromLive (nodesOf L.childNodes) x := by
  intro x hx
  cases L with
  | element m tg a p cs =>
    simp only [diff, Node.setChildNodes, Node.childNodes, diffNodes,
      trimExtraNodes_eq_take] at hx ⊢
    exact fromLive_forEachNode events (nodesOf cs) _ cs (fun y hy => hy) x
      (nodesOf_subset (fun n hn => List.mem_of_mem_take hn) hx)
  | text m d => simp [diff, Node.setChildNodes, Node.childNodes, nodesOf] at hx
  | comment m d => simp [diff, Node.setChildNodes, Node.childNodes, nodesOf] at hx

/-- C16, as stated, fails: the template `<script></script><p></p>` has two children before
`diff` and one after it, `removeScripts` having removed the script element from the template
tree itself. -/
theorem template_mutated_counterexample :
    scriptTemplate.childNodes.length = 2 ∧
      (diff none scriptTemplate emptyRoot).1 = parsed "BODY" [] [parsed "P" [] []] ∧
      (diff none scriptTemplate emptyRoot).1.childNodes.length = 1 :=
  ⟨rfl, by with_unfolding_all rfl, by with_unfolding_all rfl⟩

/-- C16, amended: after `diff(T, L, events)` the template is `T` without its script
elements (at any depth), every other node, attribute and text of it being as before; a
template without script elements is unchanged.  Every node object found in the live tree
after the call is a node object of the live tree before it or was created during the call:
no node object of the template is placed in the live tree. -/
theorem diff_template_after (events : Option Events) (T L : Node) :
    (diff events T L).1 = removeScripts T ∧
      (containsScript T = false → (diff events T L).1 = T) ∧
      ∀ x ∈ nodesOf (diff events T L).2.childNodes, x.expando.isSome = true →
        ∃ e ∈ nodesOf L.childNodes, e.expando = x.expando := by
  refine ⟨rfl, ?_, fun x hx => fromLive_diff events T L x hx⟩
  intro h
  show removeScripts T = T
  cases T with
  | element m t a p cs =>
    rw [removeScripts, removeScriptsList_of_noScript cs h]
  | text m d => simp [removeScripts]
  | comment m d => simp [removeScripts]

/-- Witness of the amended C16: the tagged template `<div></div><p></p>` (objects 7, 8, 9)
has no script and is unchanged by `diff` into the live root with the child `<p>` (object
2); the live tree afterwards holds a new `<div>` and the object 2, none of 7, 8, 9. -/
theorem diff_template_after_witness :
    containsScript taggedTemplate = false ∧
      (diff none taggedTemplate (parsed "DIV" [] [tagged 2 "P" [] []])).1 = taggedTemplate ∧
      (diff none taggedTemplate (parsed "DIV" [] [tagged 2 "P" [] []])).2 =
        parsed "DIV" [] [parsed "DIV" [] [], tagged 2 "P" [] []] :=
  ⟨by with_unfolding_all rfl,
    (diff_template_after none taggedTemplate (parsed "DIV" [] [tagged 2 "P" [] []])).2.1
      (by with_unfolding_all rfl),
    by with_unfolding_all rfl⟩

/-! ## Patching in place -/

theorem allAligned_iff : ∀ ts ls : List Node,
    allAligned ts ls = true ↔
      ts.length ≤ ls.length ∧
        ∀ (i : Nat) (t l : Node), ts[i]? = some t → ls[i]? = some l →
          isDifferentNode t l = false
  | [], ls => by simp [allAligned]
  | t :: ts, [] => by simp [allAligned]
  | t :: ts, l :: ls => by
    rw [allAligned, Bool.and_eq_true, allAligned_iff ts ls]
    constructor
    · rintro ⟨h1, h2, h3⟩
      refine ⟨by simpa using h2, ?_⟩
      intro i t' l' ht hl
      cases i with
      | zero =>
        simp only [List.getElem?_cons_zero, Option.some.injEq] at ht hl
        subst ht; subst hl
        simpa using h1
      | succ i =>
        simp only [List.getElem?_cons_succ] at ht hl
        exact h3 i t' l' ht hl
    · rintro ⟨h1, h2⟩
      refine ⟨by simpa using h2 0 t l (by simp) (by simp), by simpa using h1, ?_⟩
      intro i t' l' ht hl
      exact h2 (i + 1) t' l' (by simpa using ht) (by simpa using hl)

/-- The loop over an aligned live list patches every live child where it stands and leaves
the children behind the template's count. -/
theorem forEachNode_aligned (events : Option Events) : ∀ ts ls : List Node,
    allAligned ts ls = true →
      forEachNode events ts 0 ls =
        List.zipWith (patchNode events) ts ls ++ ls.drop ts.length
  | [], ls, _ => by simp [forEachNode_nil]
  | t :: ts, [], h => by simp [allAligned] at h
  | t :: ts, l :: ls, h => by
    rw [allAligned, Bool.and_eq_true] at h
    have hd : isDifferentNode t l = false := by simpa using h.1
    rw [forEachNode_zero]
    simp only [stepHead, hd, Bool.false_eq_true, ↓reduceIte, List.zipWith_cons_cons,
      List.length_cons, List.drop_succ_cons, List.cons_append]
    rw [forEachNode_aligned events ts ls h.2]

theorem expando_zipWith_patchNode (events : Option Events) : ∀ ts ls : List Node,
    (List.zipWith (patchNode events) ts ls).map Node.expando =
      (ls.take ts.length).map Node.expando
  | [], ls => by simp
  | t :: ts, [] => by simp
  | t :: ts, l :: ls => by
    simp only [List.zipWith_cons_cons, List.map_cons, List.length_cons, List.take_succ_cons,
      expando_patchNode, expando_zipWith_patchNode events ts ls]

theorem diffNodes_aligned (events : Option Events) (ts ls : List Node)
    (h : allAligned ts ls = true) :
    diffNodes events ts ls = List.zipWith (patchNode events) ts ls := by
  have hlen := ((allAligned_iff ts ls).mp h).1
  rw [diffNodes, trimExtraNodes_eq_take, forEachNode_aligned events ts ls h]
  exact List.take_left' (by simp [hlen])

/-- C20, as stated, fails: the live children `<script>`, `<div>` (objects 1 and 2) are as
many as the children `<script>`, `<div>` of the template and aligned with them index by
index, yet after `diff` the live root holds the one child `<div>`, the object 2, moved to
the front: `diff` has removed the script from the template first. -/
theorem in_place_counterexample :
    scriptDivTemplate.childNodes.length ≤ scriptDivRoot.childNodes.length ∧
      allAligned scriptDivTemplate.childNodes scriptDivRoot.childNodes = true ∧
      scriptDivRoot.childNodes.map Node.expando = [some 1, some 2] ∧
      (diff none scriptDivTemplate scriptDivRoot).2 = parsed "BODY" [] [tagged 2 "DIV" [] []] ∧
      (diff none scriptDivTemplate scriptDivRoot).2.childNodes.map Node.expando = [some 2] :=
  ⟨by decide, by with_unfolding_all rfl, rfl, by with_unfolding_all rfl,
    by with_unfolding_all rfl⟩

/-- C20, amended: let the live root `L` be an element with at least as many children as the
template `T` has once `diff` has removed its script elements, every such template child
being aligned with the live child at its index (`isDifferentNode` is false).  After `diff`
the child at every index is the original live child at that index, patched against the
template child at that index: the children of `L` are the first live node objects, as many
as the stripped template has children, in their original order, none created and none
moved.  A template without script elements is its own stripped template. -/
theorem diff_patches_in_place (events : Option Events) (T L : Node) (hL : L.nodeType = 1)
    (hlen : (removeScripts T).childNodes.length ≤ L.childNodes.length)
    (hal : ∀ (i : Nat) (t l : Node), (removeScripts T).childNodes[i]? = some t →
      L.childNodes[i]? = some l → isDifferentNode t l = false) :
    (diff events T L).2.childNodes =
        List.zipWith (patchNode events) (removeScripts T).childNodes L.childNodes ∧
      (diff events T L).2.childNodes.map Node.expando =
        (L.childNodes.take (removeScripts T).childNodes.length).map Node.expando ∧
      (containsScript T = false → (removeScripts T).childNodes = T.childNodes) := by
  have h := (allAligned_iff _ _).mpr ⟨hlen, hal⟩
  have h1 : (diff events T L).2.childNodes =
      List.zipWith (patchNode events) (removeScripts T).childNodes L.childNodes := by
    simp only [diff]
    rw [childNodes_setChildNodes_of_element _ _ hL, diffNodes_aligned events _ _ h]
  refine ⟨h1, ?_, ?_⟩
  · rw [h1, expando_zipWith_patchNode]
  · intro hs
    cases T with
    | element m t a p cs =>
      rw [removeScripts, Node.childNodes, removeScriptsList_of_noScript cs hs]
      rfl
    | text m d => simp [removeScripts]
    | comment m d => simp [removeScripts]

/-- Witness of the amended C20: the template `<div class="n"></div><p></p>` against the live
children `<div>`, `<p>`, `<span>` (objects 1, 2, 3): the live root keeps the objects 1 and 2
in place, the first with the new attribute, and the third is trimmed. -/
theorem diff_patches_in_place_witness :
    (diff none (parsed "BODY" [] [parsed "DIV" [("class", "n")] [], parsed "P" [] []])
        (parsed "DIV" [] [tagged 1 "DIV" [] [], tagged 2 "P" [] [], tagged 3 "SPAN" [] []])).2 =
        parsed "DIV" [] [tagged 1 "DIV" [("class", "n")] [], tagged 2 "P" [] []] ∧
      (diff none (parsed "BODY" [] [parsed "DIV" [("class", "n")] [], parsed "P" [] []])
        (parsed "DIV" [] [tagged 1 "DIV" [] [], tagged 2 "P" [] [], tagged 3 "SPAN" [] []])
        ).2.childNodes.map Node.expando =
        [some 1, some 2] :=
  ⟨by with_unfolding_all rfl,
    (diff_patches_in_place none
      (parsed "BODY" [] [parsed "DIV" [("class", "n")] [], parsed "P" [] []])
      (parsed "DIV" [] [tagged 1 "DIV" [] [], tagged 2 "P" [] [], tagged 3 "SPAN" [] []])
      rfl (by with_unfolding_all decide)
      ((allAligned_iff _ _).mp (by with_unfolding_all rfl)).2).2.1⟩

end Reef
